import Mathlib

/-!
Verification of the storage-and-concurrency core of the BusTub-style
database engine (buffer pool, LRU replacer, B+tree index, lock manager,
transaction manager).  Every definition below is a shallow embedding of a
function of the C++ source; file and line references point into the
repository sources.  Theorems at the end of the file settle the spec
claims against these embeddings.
-/

set_option maxHeartbeats 1000000

/- ----------------------------------------------------------------------
   Lock manager: compatibility rule
   src/include/concurrency/lock_manager.h, LockManager::IsLockCompatible
   ---------------------------------------------------------------------- -/

/-- `LockMode` from lock_manager.h line 37. -/
inductive LockMode where
  | SHARED
  | EXCLUSIVE
deriving DecidableEq, Repr

/-- `LockRequest` from lock_manager.h lines 40-47: transaction id, mode,
granted flag. -/
structure LockRequest where
  txn_id : Nat
  lock_mode : LockMode
  granted : Bool
deriving DecidableEq, Repr

/-- The scan of the request queue performed by `IsLockCompatible` for a
SHARED request (lock_manager.h lines 149-159): walk the queue in FIFO
order; on reaching the request under test return true; if a predecessor
is not (granted and SHARED) return false. The fall-through after the
loop (line 162) returns true. -/
def sharedScan : List LockRequest → LockRequest → Bool
  | [], _ => true
  | x :: rest, r =>
    if x.txn_id = r.txn_id then true
    else if x.granted && x.lock_mode = LockMode.SHARED then sharedScan rest r
    else false

/-- `LockManager::IsLockCompatible` (lock_manager.h lines 140-163).
For an EXCLUSIVE request: compatible iff the queue front's txn id equals
the request's txn id (line 145; the C++ dereferences `begin()`, which is
only ever called with the request already in the queue, hence nonempty —
the empty case here is a dead branch). For a SHARED request: the scan
above. -/
def IsLockCompatible (queue : List LockRequest) (r : LockRequest) : Bool :=
  match r.lock_mode with
  | LockMode.EXCLUSIVE =>
    match queue with
    | [] => false
    | front :: _ => front.txn_id = r.txn_id
  | LockMode.SHARED => sharedScan queue r

/- ----------------------------------------------------------------------
   LRU replacer
   src/buffer/lru_replacer.cpp
   ---------------------------------------------------------------------- -/

/-- `LRUReplacer` state (lru_replacer.h lines 61-67): the doubly linked
list (head = most recently unpinned, tail = least recent) together with
`lru_map`, whose key set always equals the set of frames on the list, is
modelled as a single list of frame ids; `capacity` is the bound. -/
structure LRUReplacer where
  lst : List Nat
  capacity : Nat
deriving DecidableEq, Repr

/-- `LRUReplacer::Victim` (lru_replacer.cpp lines 37-51): if empty fail,
else remove and return the tail (least recently unpinned frame). -/
def LRUReplacer.Victim (r : LRUReplacer) : Option Nat × LRUReplacer :=
  match r.lst.getLast? with
  | none => (none, r)
  | some f => (some f, { r with lst := r.lst.dropLast })

/-- `LRUReplacer::Pin` (lru_replacer.cpp lines 53-62): remove the frame
from the structure if present. -/
def LRUReplacer.Pin (r : LRUReplacer) (frame_id : Nat) : LRUReplacer :=
  if frame_id ∈ r.lst then { r with lst := r.lst.erase frame_id } else r

/-- `LRUReplacer::Unpin` (lru_replacer.cpp lines 64-76): if the frame is
already tracked (`lru_map.count(frame_id) != 0`) do nothing; otherwise,
if at capacity first evict the tail, then insert the frame at the head. -/
def LRUReplacer.Unpin (r : LRUReplacer) (frame_id : Nat) : LRUReplacer :=
  if frame_id ∈ r.lst then r
  else
    let l1 := if r.capacity ≤ r.lst.length then r.lst.dropLast else r.lst
    { r with lst := frame_id :: l1 }

/- ----------------------------------------------------------------------
   Buffer pool manager instance
   src/buffer/buffer_pool_manager_instance.cpp
   ---------------------------------------------------------------------- -/

/-- Page metadata (spec section 3; fields of `Page` used by the buffer
pool): page id (`-1` is `INVALID_PAGE_ID`), pin count, dirty flag. -/
structure Page where
  page_id : Int
  pin_count : Nat
  is_dirty : Bool
deriving DecidableEq, Repr

instance : Inhabited Page := ⟨⟨-1, 0, false⟩⟩

/-- `BufferPoolManagerInstance` state: the frame array `pages_`, the
`page_table_` mapping page id to frame, the `free_list_`, the replacer,
and an append-only log of page ids passed to `DiskManager`'s
`DeallocatePage` (to make the disk call observable). -/
structure BufferPool where
  pool_size : Nat
  pages : List Page
  page_table : List (Int × Nat)
  free_list : List Nat
  replacer : LRUReplacer
  deallocated : List Int
deriving DecidableEq, Repr

/-- Association-list lookup for `page_table_` (std::unordered_map,
unique keys). -/
def tableLookup (t : List (Int × Nat)) (pid : Int) : Option Nat :=
  match t with
  | [] => none
  | (k, v) :: rest => if k = pid then some v else tableLookup rest pid

/-- `page_table_.erase(page_id)`. -/
def tableErase (t : List (Int × Nat)) (pid : Int) : List (Int × Nat) :=
  match t with
  | [] => []
  | (k, v) :: rest => if k = pid then rest else (k, v) :: tableErase rest pid

/-- `page_table_[page_id]` : C++ `std::unordered_map::operator[]`
semantics — if the key is absent a value-initialized entry (frame id 0)
is INSERTED and returned.  Returns the frame id and the possibly grown
table. -/
def tableGetOrInsert (t : List (Int × Nat)) (pid : Int) : Nat × List (Int × Nat) :=
  match tableLookup t pid with
  | some f => (f, t)
  | none => (0, t ++ [(pid, 0)])

/-- `BufferPoolManagerInstance::FlushPgImp`
(buffer_pool_manager_instance.cpp lines 53-60): fail when the page is
not resident or the id is invalid; otherwise write to disk (no state
change in this model beyond the disk write). -/
def FlushPgImp (st : BufferPool) (page_id : Int) : Bool × BufferPool :=
  if tableLookup st.page_table page_id = none ∨ page_id = -1 then (false, st)
  else (true, st)

/-- `BufferPoolManagerInstance::DeletePgImp`
(buffer_pool_manager_instance.cpp lines 192-233).  Deallocates on disk
first (line 201), returns true when not resident (line 207), returns
false when resident and pinned (line 217); otherwise erases the page
table mapping, resets the metadata to INVALID, pushes the frame on the
free list — and then returns FALSE (line 232 of the source). -/
def DeletePgImp (st : BufferPool) (page_id : Int) : Bool × BufferPool :=
  let st0 := { st with deallocated := st.deallocated ++ [page_id] }
  match tableLookup st0.page_table page_id with
  | none => (true, st0)
  | some frame_id =>
    let p := st0.pages.getD frame_id default
    if p.pin_count ≠ 0 then (false, st0)
    else
      let p1 := { p with page_id := -1, is_dirty := false }
      (false,
        { st0 with
          page_table := tableErase st0.page_table page_id
          pages := st0.pages.set frame_id p1
          free_list := st0.free_list ++ [frame_id] })

/-- `BufferPoolManagerInstance::UnpinPgImp`
(buffer_pool_manager_instance.cpp lines 236-253).  Looks the page up
with `page_table_[page_id]` (operator[], which default-inserts frame 0
when the page is not resident — line 239), then ASSIGNS the dirty flag
(`p->is_dirty_ = is_dirty;`, line 241 — plain assignment, not an OR).
If the pin count is zero returns false; otherwise decrements, and
returns true only when the pin count reaches zero (unpinning the frame
in the replacer). -/
def UnpinPgImp (st : BufferPool) (page_id : Int) (is_dirty : Bool) :
    Bool × BufferPool :=
  let fr := tableGetOrInsert st.page_table page_id
  let frame_id := fr.1
  let p := st.pages.getD frame_id default
  let p1 := { p with is_dirty := is_dirty }
  let st1 := { st with page_table := fr.2, pages := st.pages.set frame_id p1 }
  if p1.pin_count = 0 then (false, st1)
  else
    let p2 := { p1 with pin_count := p1.pin_count - 1 }
    let st2 := { st1 with pages := st1.pages.set frame_id p2 }
    if p2.pin_count = 0 then
      (true, { st2 with replacer := st2.replacer.Unpin frame_id })
    else (false, st2)

/- ----------------------------------------------------------------------
   Transactions and LockManager::Unlock
   src/concurrency/lock_manager.cpp lines 198-232
   ---------------------------------------------------------------------- -/

/-- `TransactionState` (spec section 3 / transaction.h). -/
inductive TransactionState where
  | GROWING
  | SHRINKING
  | COMMITTED
  | ABORTED
deriving DecidableEq, Repr

/-- `IsolationLevel` (spec section 3 / transaction.h). -/
inductive IsolationLevel where
  | READ_UNCOMMITTED
  | READ_COMMITTED
  | REPEATABLE_READ
deriving DecidableEq, Repr

/-- The fields of `Transaction` used by `LockManager::Unlock`: id, state,
isolation level, and the two held-lock sets (RIDs modelled as `Nat`). -/
structure Transaction where
  txn_id : Nat
  isolation_level : IsolationLevel
  state : TransactionState
  shared_lock_set : List Nat
  exclusive_lock_set : List Nat
deriving DecidableEq, Repr

/-- `request_queue_.erase(it)` where `it` is the result of the `find_if`
on the transaction id (lock_manager.cpp lines 213-219): erase the first
request of this transaction.  When no request matches, the C++ calls
`erase(end())`, which is undefined behavior; the observable path the
implementation takes is to leave the list unchanged and fall through to
`return true`. -/
def eraseFirstRequest (queue : List LockRequest) (tid : Nat) : List LockRequest :=
  match queue with
  | [] => []
  | x :: rest => if x.txn_id = tid then rest else x :: eraseFirstRequest rest tid

/-- `LockManager::Unlock` (lock_manager.cpp lines 198-232): move
GROWING to SHRINKING unless READ_COMMITTED, erase the transaction's
request from the queue, remove the rid from both lock sets, and return
true — the function's only return statement (line 231) returns true on
every path, including a second unlock of the same rid. -/
def Unlock (txn : Transaction) (queue : List LockRequest) (rid : Nat) :
    Bool × Transaction × List LockRequest :=
  let txn1 :=
    if txn.isolation_level ≠ IsolationLevel.READ_COMMITTED ∧
        txn.state = TransactionState.GROWING then
      { txn with state := TransactionState.SHRINKING }
    else txn
  let queue1 := eraseFirstRequest queue txn.txn_id
  let txn2 := { txn1 with
    shared_lock_set := txn1.shared_lock_set.erase rid
    exclusive_lock_set := txn1.exclusive_lock_set.erase rid }
  (true, txn2, queue1)

/- ----------------------------------------------------------------------
   TransactionManager::Abort
   src/concurrency/transaction_manager.cpp lines 65-115
   ---------------------------------------------------------------------- -/

/-- `WType` (write record type; named `WriteType` here because Mathlib already uses `WType`). -/
inductive WriteType where
  | INSERT
  | DELETE
  | UPDATE
deriving DecidableEq, Repr

/-- A table write record (`TableWriteRecord`): rid, type, and the tuple
field `tuple_` (for an UPDATE this is the old tuple, restored on abort).
Tuples are modelled as `Nat` identifiers. -/
structure TableWriteRecord where
  rid : Nat
  wtype : WriteType
  tuple : Nat
deriving DecidableEq, Repr

/-- An index write record (`IndexWriteRecord`): rid, type, the (new)
tuple, the old tuple (used only by UPDATE), and the index oid. -/
structure IndexWriteRecord where
  rid : Nat
  wtype : WriteType
  tuple : Nat
  old_tuple : Nat
  index_oid : Nat
deriving DecidableEq, Repr

/-- The primitive undo operations `Abort` invokes on the table heap and
on the indexes. -/
inductive UndoAction where
  | rollbackDelete (rid : Nat)
  | applyDelete (rid : Nat)
  | updateTuple (tuple : Nat) (rid : Nat)
  | indexInsertEntry (index_oid : Nat) (key : Nat) (rid : Nat)
  | indexDeleteEntry (index_oid : Nat) (key : Nat) (rid : Nat)
deriving DecidableEq, Repr

/-- The inverse table operation chosen by `Abort` for one record
(transaction_manager.cpp lines 72-81): DELETE is undone by
`RollbackDelete`, INSERT by `ApplyDelete`, UPDATE by `UpdateTuple` with
the logged (old) tuple. -/
def tableUndo (item : TableWriteRecord) : UndoAction :=
  match item.wtype with
  | WriteType.DELETE => UndoAction.rollbackDelete item.rid
  | WriteType.INSERT => UndoAction.applyDelete item.rid
  | WriteType.UPDATE => UndoAction.updateTuple item.tuple item.rid

/-- The inverse index operations chosen by `Abort` for one record
(transaction_manager.cpp lines 95-105): a logged DELETE is undone by
`InsertEntry` of the key of the logged tuple, a logged INSERT by
`DeleteEntry`, and a logged UPDATE by `DeleteEntry` of the new key
followed by `InsertEntry` of the old key.  `keyOf idx t` abstracts
`Tuple::KeyFromTuple` (key of tuple `t` under index `idx`'s schema). -/
def indexUndo (keyOf : Nat → Nat → Nat) (item : IndexWriteRecord) : List UndoAction :=
  match item.wtype with
  | WriteType.DELETE => [UndoAction.indexInsertEntry item.index_oid (keyOf item.index_oid item.tuple) item.rid]
  | WriteType.INSERT => [UndoAction.indexDeleteEntry item.index_oid (keyOf item.index_oid item.tuple) item.rid]
  | WriteType.UPDATE =>
    [UndoAction.indexDeleteEntry item.index_oid (keyOf item.index_oid item.tuple) item.rid,
     UndoAction.indexInsertEntry item.index_oid (keyOf item.index_oid item.old_tuple) item.rid]

/-- The table-write rewind loop of `Abort` (transaction_manager.cpp
lines 69-83): `while (!table_write_set->empty())` take the BACK record,
apply its inverse, `pop_back()`. -/
def rewindTableWrites (ws : List TableWriteRecord) : List UndoAction :=
  match h : ws.getLast? with
  | none => []
  | some item => tableUndo item :: rewindTableWrites ws.dropLast
termination_by ws.length
decreasing_by
  have hne : ws ≠ [] := by
    intro hnil
    rw [hnil] at h
    simp at h
  cases ws with
  | nil => exact absurd rfl hne
  | cons a l => simp [List.length_dropLast]

/-- The index-write rewind loop of `Abort` (transaction_manager.cpp
lines 87-107): same back-to-front loop over the index write set. -/
def rewindIndexWrites (keyOf : Nat → Nat → Nat) (ws : List IndexWriteRecord) : List UndoAction :=
  match h : ws.getLast? with
  | none => []
  | some item => indexUndo keyOf item ++ rewindIndexWrites keyOf ws.dropLast
termination_by ws.length
decreasing_by
  have hne : ws ≠ [] := by
    intro hnil
    rw [hnil] at h
    simp at h
  cases ws with
  | nil => exact absurd rfl hne
  | cons a l => simp [List.length_dropLast]

/-- `TransactionManager::Abort` (transaction_manager.cpp lines 65-115):
set the state to ABORTED, rewind the table writes back-to-front, then
rewind the index writes back-to-front.  The result is the final
transaction state together with the sequence of undo operations issued,
in order. -/
def Abort (keyOf : Nat → Nat → Nat) (tws : List TableWriteRecord)
    (iws : List IndexWriteRecord) : TransactionState × List UndoAction :=
  (TransactionState.ABORTED, rewindTableWrites tws ++ rewindIndexWrites keyOf iws)

/- ----------------------------------------------------------------------
   Wait-for graph and deadlock detection
   src/concurrency/lock_manager.cpp lines 235-360
   ---------------------------------------------------------------------- -/

/-- The `waits_for_` map: association list from transaction id to its
(sorted) list of out-neighbors. -/
abbrev WaitsFor := List (Nat × List Nat)

/-- `waits_for_[u]` read access: the neighbor vector of `u`, empty when
`u` has no entry (operator[] default-constructs an empty vector). -/
def adjOf (g : WaitsFor) (u : Nat) : List Nat :=
  (g.lookup u).getD []

/-- The sorted insertion performed by `AddEdge` (lock_manager.cpp lines
235-247): `lower_bound` then insert unless already present, keeping the
neighbor list sorted ascending. -/
def insertSorted (t2 : Nat) : List Nat → List Nat
  | [] => [t2]
  | x :: rest =>
    if t2 < x then t2 :: x :: rest
    else if t2 = x then x :: rest
    else x :: insertSorted t2 rest

/-- Replace the neighbor list of `t1` (or append a fresh entry), the
write part of `waits_for_[t1]`. -/
def setAdj (g : WaitsFor) (t1 : Nat) (v : List Nat) : WaitsFor :=
  match g with
  | [] => [(t1, v)]
  | (k, w) :: rest => if k = t1 then (k, v) :: rest else (k, w) :: setAdj rest t1 v

/-- `LockManager::AddEdge` (lock_manager.cpp lines 235-247). -/
def AddEdge (g : WaitsFor) (t1 t2 : Nat) : WaitsFor :=
  setAdj g t1 (insertSorted t2 (adjOf g t1))

/-- `LockManager::RemoveEdge` (lock_manager.cpp lines 250-260). -/
def RemoveEdge (g : WaitsFor) (t1 t2 : Nat) : WaitsFor :=
  setAdj g t1 ((adjOf g t1).erase t2)

/-- `VisitedType` (lock_manager.h line 38). -/
inductive VisitedType where
  | NOT_VISITED
  | IN_STACK
  | VISITED
deriving DecidableEq, Repr

/-- The `visited` map of the DFS, embedded as an association list where
`insert`/`insert_or_assign` cons a new entry at the front and lookup
takes the most recent entry.  (The entry order thus records the marking
history: newest first.) -/
abbrev VMap := List (Nat × VisitedType)

/-- Lookup in the visited map (`visited.find`). -/
def lookupV (vm : VMap) (x : Nat) : Option VisitedType :=
  vm.lookup x

/-- The segment of the DFS stack from the top down to (and including)
the first occurrence of `vertex` — exactly the vertices
`GetYoungestTransactionInCycle` moves into its temporary stack
(lock_manager.cpp lines 342-350). -/
def cycleSeg : List Nat → Nat → List Nat
  | [], _ => []
  | u :: rest, v => if u = v then [u] else u :: cycleSeg rest v

/-- `LockManager::GetYoungestTransactionInCycle` (lock_manager.cpp lines
340-360): the maximum transaction id over the cycle segment of the
stack, starting from 0. -/
def GetYoungestTransactionInCycle (stack : List Nat) (vertex : Nat) : Nat :=
  (cycleSeg stack vertex).foldl max 0

/-- The neighbor loop of `LockManager::ProcessDFSTree` (lock_manager.cpp
lines 310-329) followed by the function epilogue (lines 331-334).
Arguments: the recursive visit (`ProcessDFSTree` on a pushed child), the
remaining neighbors of the stack top, the DFS stack (head = top), the
visited map.  A neighbor marked IN_STACK is a back edge: record the
youngest transaction in the cycle and break; an unvisited neighbor is
pushed, marked IN_STACK and visited recursively; other neighbors are
skipped.  On loop completion or break, the top is marked VISITED
(insert_or_assign) and popped. -/
def dfsLoop (g : WaitsFor)
    (visit : List Nat → VMap → Option Nat × VMap) :
    List Nat → List Nat → VMap → Option Nat × VMap
  | [], [], vm => (none, vm)
  | [], u :: _, vm => (none, (u, VisitedType.VISITED) :: vm)
  | _ :: _, [], vm => (none, vm)
  | v :: ns, u :: rest, vm =>
    match lookupV vm v with
    | some VisitedType.IN_STACK =>
      (some (GetYoungestTransactionInCycle (u :: rest) v), (u, VisitedType.VISITED) :: vm)
    | some VisitedType.VISITED => dfsLoop g visit ns (u :: rest) vm
    | some VisitedType.NOT_VISITED => dfsLoop g visit ns (u :: rest) vm
    | none =>
      match visit (v :: u :: rest) ((v, VisitedType.IN_STACK) :: vm) with
      | (some t, vm') => (some t, (u, VisitedType.VISITED) :: vm')
      | (none, vm') => dfsLoop g visit ns (u :: rest) vm'

/-- `LockManager::ProcessDFSTree` (lock_manager.cpp lines 305-337):
iterate over the neighbors of the stack top.  The explicit fuel bounds
the recursion depth; the C++ recursion depth is bounded by the number of
distinct vertices since only unvisited vertices are pushed. -/
def dfsVisit (g : WaitsFor) : Nat → List Nat → VMap → Option Nat × VMap
  | 0, _, vm => (none, vm)
  | fuel + 1, stack, vm =>
    dfsLoop g (dfsVisit g fuel) (adjOf g (stack.headD 0)) stack vm

/-- Ascending insertion sort: the effect of `std::sort` on the vertex
vector (lock_manager.cpp line 279). -/
def insAsc (x : Nat) : List Nat → List Nat
  | [] => [x]
  | y :: rest => if x ≤ y then x :: y :: rest else y :: insAsc x rest

/-- Sort a list of vertex ids ascending. -/
def sortAsc (l : List Nat) : List Nat :=
  l.foldr insAsc []

/-- All vertex ids occurring anywhere in the graph (keys and neighbor
lists); an upper bound on how many vertices a DFS can push. -/
def allVerts (g : WaitsFor) : List Nat :=
  g.foldr (fun p acc => p.1 :: p.2 ++ acc) []

/-- Fuel that dominates the DFS recursion depth. -/
def fuelFor (g : WaitsFor) : Nat :=
  (allVerts g).length + 1

/-- The outer loop of `LockManager::HasCycle` (lock_manager.cpp lines
285-298): scan the sorted vertices; for each unvisited vertex, push it,
mark IN_STACK and run `ProcessDFSTree`; return the victim of the first
cycle found. -/
def HasCycleAux (g : WaitsFor) : List Nat → VMap → Option Nat × VMap
  | [], vm => (none, vm)
  | v :: vs, vm =>
    match lookupV vm v with
    | some _ => HasCycleAux g vs vm
    | none =>
      match dfsVisit g (fuelFor g) [v] ((v, VisitedType.IN_STACK) :: vm) with
      | (some t, vm') => (some t, vm')
      | (none, vm') => HasCycleAux g vs vm'

/-- `LockManager::HasCycle` (lock_manager.cpp lines 273-300): vertices
are the keys of `waits_for_`, sorted ascending; returns the victim
transaction id of the first cycle found, if any. -/
def HasCycle (g : WaitsFor) : Option Nat :=
  (HasCycleAux g (sortAsc (g.map Prod.fst)) []).1

/-- One round of `LockManager::RunCycleDetection` (lock_manager.cpp
lines 410-413): when `HasCycle` reports a victim, that transaction's
state is set to ABORTED. -/
def RunCycleDetectionStep (g : WaitsFor) (states : Nat → TransactionState) :
    Nat → TransactionState :=
  match HasCycle g with
  | none => states
  | some t => fun x => if x = t then TransactionState.ABORTED else states x

/-- Edge test in the wait-for graph. -/
def edgeB (g : WaitsFor) (u v : Nat) : Bool :=
  (adjOf g u).contains v

/-- `chainB g u l` : consecutive edges from `u` through the vertices of
`l`. -/
def chainB (g : WaitsFor) : Nat → List Nat → Bool
  | _, [] => true
  | u, v :: rest => edgeB g u v && chainB g v rest

/-- A (directed) cycle in the wait-for graph: a nonempty vertex list
with consecutive edges and a closing edge from the last vertex back to
the first. -/
def isCycleList (g : WaitsFor) : List Nat → Bool
  | [] => false
  | v :: rest => chainB g v rest && edgeB g ((v :: rest).getLast (by simp)) v

/-- The DFS stack read bottom-up: each element is a neighbor of the one
below it (the stack head was pushed from the element after it). -/
def stackChainB (g : WaitsFor) : List Nat → Bool
  | a :: b :: rest => edgeB g b a && stackChainB g (b :: rest)
  | _ => true

/-- Number of vertices of the graph not yet marked in the visited map;
the DFS recursion depth bound. -/
def countUnmarked (g : WaitsFor) (vm : VMap) : Nat :=
  ((allVerts g).dedup.filter (fun x => (lookupV vm x).isNone)).length

/-- `u` has a VISITED entry somewhere in the map (possibly shadowed). -/
def visEntry (vm : VMap) (u : Nat) : Prop :=
  (u, VisitedType.VISITED) ∈ vm

/-- Each vertex has at most one VISITED entry in the map. -/
def visNodup (vm : VMap) : Prop :=
  ((vm.filter (fun e => e.2 = VisitedType.VISITED)).map Prod.fst).Nodup

/-- The finish-order property of a three-color DFS that found no cycle:
whenever a vertex was marked VISITED (its entry consed over the map
`post` that existed at that moment), all its neighbors were already
VISITED in `post`. -/
def visitedClosed (g : WaitsFor) (vm : VMap) : Prop :=
  ∀ pre u post, vm = pre ++ (u, VisitedType.VISITED) :: post →
    ∀ x ∈ adjOf g u, lookupV post x = some VisitedType.VISITED

/-- Invariants of a `ProcessDFSTree` activation: nonempty stack forming
a descending chain of edges, the IN_STACK marks are exactly the stack
members, no NOT_VISITED value is ever stored, the finish-order property
holds, VISITED entries are unique, and an IN_STACK vertex has no
(shadowed) VISITED entry. -/
def DfsPre (g : WaitsFor) (stack : List Nat) (vm : VMap) : Prop :=
  stack ≠ [] ∧ stackChainB g stack = true ∧
  (∀ w, lookupV vm w = some VisitedType.IN_STACK → w ∈ stack) ∧
  (∀ w ∈ stack, lookupV vm w = some VisitedType.IN_STACK) ∧
  (∀ w, lookupV vm w ≠ some VisitedType.NOT_VISITED) ∧
  visitedClosed g vm ∧ visNodup vm ∧
  (∀ w, lookupV vm w = some VisitedType.IN_STACK → ¬ visEntry vm w)

/-- What a completed (no cycle found) `ProcessDFSTree` activation on
stack head `u` guarantees about the visited map it returns. -/
def DfsPostNone (g : WaitsFor) (u : Nat) (vm vm' : VMap) : Prop :=
  (∀ w, lookupV vm' w = some VisitedType.IN_STACK →
    lookupV vm w = some VisitedType.IN_STACK ∧ w ≠ u) ∧
  lookupV vm' u = some VisitedType.VISITED ∧
  (∀ w, lookupV vm w = some VisitedType.VISITED → lookupV vm' w = some VisitedType.VISITED) ∧
  (∀ w, lookupV vm w = some VisitedType.IN_STACK → w ≠ u →
    lookupV vm' w = some VisitedType.IN_STACK) ∧
  (∀ w, lookupV vm' w ≠ some VisitedType.NOT_VISITED) ∧
  visitedClosed g vm' ∧ visNodup vm' ∧
  (∀ w, lookupV vm' w = some VisitedType.IN_STACK → ¬ visEntry vm' w) ∧
  List.IsSuffix vm vm'

/-- The victim reported on finding a cycle is the maximum transaction id
over the vertices of an actual cycle of the graph. -/
def CycleConcl (g : WaitsFor) (t : Nat) : Prop :=
  ∃ c, isCycleList g c = true ∧ t ∈ c ∧ ∀ x ∈ c, x ≤ t

/-- Invariants of the visited map between two root scans of `HasCycle`:
no IN_STACK and no NOT_VISITED marks remain, the finish-order property
holds and VISITED entries are unique. -/
def TopPre (g : WaitsFor) (vm : VMap) : Prop :=
  (∀ w, lookupV vm w ≠ some VisitedType.IN_STACK) ∧
  (∀ w, lookupV vm w ≠ some VisitedType.NOT_VISITED) ∧
  visitedClosed g vm ∧ visNodup vm

/- ----------------------------------------------------------------------
   B+tree
   src/storage/index/b_plus_tree.cpp,
   src/storage/page/b_plus_tree_leaf_page.cpp,
   src/storage/page/b_plus_tree_internal_page.cpp

   Keys are modelled as `Int` (GenericKey with GenericComparator — a
   three-way integer comparison), RIDs as `Nat`, page ids as `Int` with
   `-1` for INVALID_PAGE_ID.  A node's slot array is modelled by its
   live prefix (the first `GetSize()` slots); slots beyond the current
   size hold stale bytes in the C++ and are read as defaults here.
   ---------------------------------------------------------------------- -/

/-- A B+tree node page: the common header fields used by the embedded
operations (parent page id, max size) plus the payload.  A leaf holds
`(key, RID)` entries and `next_page_id_`; an internal node holds
`(key, child page id)` slots where slot 0's key is unused. -/
inductive BPTNode where
  | leaf (parent : Int) (max_size : Nat) (entries : List (Int × Nat)) (next_page_id : Int)
  | internal (parent : Int) (max_size : Nat) (slots : List (Int × Int))
deriving DecidableEq, Repr

/-- `GetParentPageId`. -/
def BPTNode.parentOf : BPTNode → Int
  | BPTNode.leaf p _ _ _ => p
  | BPTNode.internal p _ _ => p

/-- Set the parent page id header field (`SetParentPageId`). -/
def BPTNode.withParent (n : BPTNode) (p : Int) : BPTNode :=
  match n with
  | BPTNode.leaf _ m e nx => BPTNode.leaf p m e nx
  | BPTNode.internal _ m s => BPTNode.internal p m s

/-- The B+tree: root page id, the two max-size parameters, the page
store (buffer pool + disk collapsed into one map), and the page id
allocator of `NewPage`. -/
structure BPlusTree where
  root_page_id : Int
  leaf_max_size : Nat
  internal_max_size : Nat
  pages : List (Int × BPTNode)
  next_alloc : Int
deriving DecidableEq, Repr

/-- Fetch a node (`buffer_pool_manager_->FetchPage` + cast); fetching
INVALID_PAGE_ID fails. -/
def getNode (t : BPlusTree) (pid : Int) : Option BPTNode :=
  if pid = -1 then none else
  match t.pages.find? (fun p => p.1 = pid) with
  | none => none
  | some p => some p.2

/-- Write a node back into the page store. -/
def putNode (t : BPlusTree) (pid : Int) (n : BPTNode) : BPlusTree :=
  if (t.pages.find? (fun p => p.1 = pid)).isSome then
    { t with pages := t.pages.map (fun p => if p.1 = pid then (pid, n) else p) }
  else { t with pages := t.pages ++ [(pid, n)] }

/-- Allocate a fresh page (`NewPage`) holding node `n`; returns the new
tree and the new page id. -/
def allocNode (t : BPlusTree) (n : BPTNode) : BPlusTree × Int :=
  let pid := t.next_alloc
  ({ t with pages := t.pages ++ [(pid, n)], next_alloc := pid + 1 }, pid)

/-- `child->SetParentPageId(p)` through the buffer pool: update one
node's parent header field (unchanged if the page is absent; the C++
would fault there). -/
def setParentOf (t : BPlusTree) (pid : Int) (p : Int) : BPlusTree :=
  match getNode t pid with
  | none => t
  | some n => putNode t pid (n.withParent p)

/-- `GetMinSize` for leaf pages.  Modelled from the spec: the body of
`BPlusTreePage::GetMinSize` (b_plus_tree_page.cpp) is not among the
sources; per the split comment in `BPlusTreeLeafPage::MoveHalfTo`
(b_plus_tree_leaf_page.cpp line 141: sizes 3 and 4 give start indices 1
and 2) the leaf minimum is `max_size / 2`. -/
def leafMinSize (m : Nat) : Nat := m / 2

/-- `GetMinSize` for internal pages.  Modelled from the spec: the body
of `BPlusTreePage::GetMinSize` is not among the sources; per the split
comment in `BPlusTreeInternalPage::MoveHalfTo`
(b_plus_tree_internal_page.cpp line 152: sizes 3 and 4 both give start
index 2) the internal minimum is `(max_size + 1) / 2`. -/
def internalMinSize (m : Nat) : Nat := (m + 1) / 2

/-- The shared shape of the two binary searches (leaf `KeyIndex`,
internal `Lookup`): narrow `[left, right]` with
`mid = left + (right - left) / 2`, going left when `goLeft` holds for
the key at `mid`; returns the final `left`.  The fuel bounds the number
of loop iterations; it is always instantiated with the slot count plus
one, which dominates the initial interval length, and the interval
shrinks by at least one per iteration, so the fuel never runs out. -/
def binSearch (goLeft : Int → Bool) (keys : List Int) : Nat → Int → Int → Int
  | 0, left, _ => left
  | fuel + 1, left, right =>
    if left ≤ right then
      let mid := left + (right - left) / 2
      if goLeft (keys.getD mid.toNat 0) then binSearch goLeft keys fuel left (mid - 1)
      else binSearch goLeft keys fuel (mid + 1) right
    else left

/-- `BPlusTreeLeafPage::KeyIndex` (b_plus_tree_leaf_page.cpp lines
57-75): first index whose key is ≥ the query
(`comparator(KeyAt(mid), key) >= 0` goes left). -/
def KeyIndex (entries : List (Int × Nat)) (key : Int) : Int :=
  binSearch (fun k => key ≤ k) (entries.map Prod.fst) (entries.length + 1) 0
    ((entries.length : Int) - 1)

/-- `BPlusTreeLeafPage::Lookup` (b_plus_tree_leaf_page.cpp lines
166-174). -/
def Leaf_Lookup (entries : List (Int × Nat)) (key : Int) : Option Nat :=
  let ti := (KeyIndex entries key).toNat
  if ti = entries.length ∨ (entries.getD ti (0, 0)).1 ≠ key then none
  else some (entries.getD ti (0, 0)).2

/-- `BPlusTreeLeafPage::Insert` (b_plus_tree_leaf_page.cpp lines
103-119): find the insertion index; if the key at that index equals the
query (duplicate) return without change, else shift and insert. -/
def Leaf_Insert (entries : List (Int × Nat)) (key : Int) (value : Nat) :
    List (Int × Nat) :=
  let ii := (KeyIndex entries key).toNat
  if entries.length ≠ 0 ∧ (entries.getD ii (0, 0)).1 = key then entries
  else entries.take ii ++ (key, value) :: entries.drop ii

/-- `BPlusTreeInternalPage::Lookup` (b_plus_tree_internal_page.cpp
lines 86-105): binary search over keys 1..size-1 for the first key
strictly greater than the query (`comparator(KeyAt(mid), key) > 0` goes
left); descend through the child left of it. -/
def Internal_Lookup (slots : List (Int × Int)) (key : Int) : Int :=
  let ti := binSearch (fun k => key < k) (slots.map Prod.fst) (slots.length + 1) 1
    ((slots.length : Int) - 1)
  (slots.getD (ti - 1).toNat (0, -1)).2

/-- Descend from `pid` to the leaf that should contain `key`: the
navigation performed by `FindLeafPageByOperation`
(b_plus_tree.cpp lines 764-841) with `leftMost = rightMost = false`,
identical for FIND, INSERT and DELETE (only the latching differs).
Returns the leaf's page id. -/
def findLeafPid (t : BPlusTree) (key : Int) : Nat → Int → Option Int
  | 0, _ => none
  | fuel + 1, pid =>
    match getNode t pid with
    | none => none
    | some (BPTNode.leaf _ _ _ _) => some pid
    | some (BPTNode.internal _ _ slots) => findLeafPid t key fuel (Internal_Lookup slots key)

/-- Depth fuel for the descent: more pages than the store holds can
never be visited on a simple path. -/
def treeFuel (t : BPlusTree) : Nat :=
  t.pages.length + 1

/-- `BPlusTree::GetValue` (b_plus_tree.cpp lines 47-69): descend to the
leaf, then `Lookup` inside it. -/
def GetValue (t : BPlusTree) (key : Int) : Option Nat :=
  match findLeafPid t key (treeFuel t) t.root_page_id with
  | none => none
  | some pid =>
    match getNode t pid with
    | some (BPTNode.leaf _ _ entries _) => Leaf_Lookup entries key
    | _ => none

/-- `BPlusTree::StartNewTree` (b_plus_tree.cpp lines 102-116): allocate
a new leaf root with the single entry. -/
def StartNewTree (t : BPlusTree) (key : Int) (value : Nat) : BPlusTree :=
  let a := allocNode t (BPTNode.leaf (-1) t.leaf_max_size [(key, value)] (-1))
  { a.1 with root_page_id := a.2 }

/-- `BPlusTreeInternalPage::ValueIndex` (b_plus_tree_internal_page.cpp
lines 55-65): index of the slot whose value (child pointer) equals the
argument. -/
def Internal_ValueIndex (slots : List (Int × Int)) (v : Int) : Option Nat :=
  slots.findIdx? (fun s => s.2 = v)

/-- `BPlusTreeInternalPage::InsertNodeAfter` (b_plus_tree_internal_page.cpp
lines 130-141): insert `(new_key, new_value)` right after the slot
holding `old_value`. -/
def Internal_InsertNodeAfter (slots : List (Int × Int))
    (old_value : Int) (new_key : Int) (new_value : Int) : List (Int × Int) :=
  match Internal_ValueIndex slots old_value with
  | none => slots
  | some idx =>
    slots.take (idx + 1) ++ (new_key, new_value) :: slots.drop (idx + 1)

/-- `Split` on a leaf (b_plus_tree.cpp lines 195-226, leaf branch, with
`BPlusTreeLeafPage::MoveHalfTo`, b_plus_tree_leaf_page.cpp lines
138-145): allocate a new leaf with the same parent, move the entries
from index `GetMinSize()` on into it, and relink the leaf chain.
Returns the new tree and the new leaf's page id (`none` if `pid` is not
a leaf). -/
def SplitLeaf (t : BPlusTree) (pid : Int) : Option (BPlusTree × Int) :=
  match getNode t pid with
  | some (BPTNode.leaf parent m entries next) =>
    let start := leafMinSize m
    let a := allocNode t (BPTNode.leaf parent t.leaf_max_size (entries.drop start) next)
    let t1 := putNode a.1 pid (BPTNode.leaf parent m (entries.take start) a.2)
    some (t1, a.2)
  | _ => none

/-- `Split` on an internal node (b_plus_tree.cpp lines 195-226, internal
branch, with `BPlusTreeInternalPage::MoveHalfTo` and `CopyNFrom`,
b_plus_tree_internal_page.cpp lines 150-174): allocate a new internal
node with the same parent, move the slots from index `GetMinSize()` on
into it, and rewrite the moved children's parent pointers to the new
page. -/
def SplitInternal (t : BPlusTree) (pid : Int) : Option (BPlusTree × Int) :=
  match getNode t pid with
  | some (BPTNode.internal parent m slots) =>
    let start := internalMinSize m
    let moved := slots.drop start
    let a := allocNode t (BPTNode.internal parent t.internal_max_size moved)
    let t1 := putNode a.1 pid (BPTNode.internal parent m (slots.take start))
    let t2 := moved.foldl (fun acc s => setParentOf acc s.2 a.2) t1
    some (t2, a.2)
  | _ => none

/-- `BPlusTree::InsertIntoParent` (b_plus_tree.cpp lines 240-307): if
`old` is the root, build a new internal root via `PopulateNewRoot`
(b_plus_tree_internal_page.cpp lines 117-123) and reparent both
children; else insert `(key, new_pid)` after `old`'s slot in the
parent, splitting the parent and recursing when it reached its max
size. -/
def InsertIntoParent (t : BPlusTree) (old_pid : Int) (key : Int) (new_pid : Int) :
    Nat → Option BPlusTree
  | 0 => none
  | fuel + 1 => do
    let old ← getNode t old_pid
    if old.parentOf = -1 then
      let a := allocNode t (BPTNode.internal (-1) t.internal_max_size [(0, old_pid), (key, new_pid)])
      let t1 := setParentOf (setParentOf a.1 old_pid a.2) new_pid a.2
      some { t1 with root_page_id := a.2 }
    else
      let ppid := old.parentOf
      match getNode t ppid with
      | some (BPTNode.internal pparent pmax pslots) =>
        let slots1 := Internal_InsertNodeAfter pslots old_pid key new_pid
        let t1 := putNode t ppid (BPTNode.internal pparent pmax slots1)
        if slots1.length < pmax then some t1
        else do
          let s ← SplitInternal t1 ppid
          match getNode s.1 s.2 with
          | some (BPTNode.internal _ _ newslots) =>
            InsertIntoParent s.1 ppid (newslots.getD 0 (0, -1)).1 s.2 fuel
          | _ => none
      | _ => none

/-- `BPlusTree::InsertIntoLeaf` (b_plus_tree.cpp lines 134-181): find
the leaf for the key; if the key already exists return `false` with the
tree untouched; else insert into the leaf and split when the leaf
reached `GetMaxSize()`. -/
def InsertIntoLeaf (t : BPlusTree) (key : Int) (value : Nat) :
    Option (Bool × BPlusTree) := do
  let pid ← findLeafPid t key (treeFuel t) t.root_page_id
  match getNode t pid with
  | some (BPTNode.leaf parent m entries next) =>
    if (Leaf_Lookup entries key).isSome then some (false, t)
    else
      let entries1 := Leaf_Insert entries key value
      let t1 := putNode t pid (BPTNode.leaf parent m entries1 next)
      if m ≤ entries1.length then do
        let s ← SplitLeaf t1 pid
        match getNode s.1 s.2 with
        | some (BPTNode.leaf _ _ newentries _) =>
          let t3 ← InsertIntoParent s.1 pid (newentries.getD 0 (0, 0)).1 s.2 (treeFuel s.1)
          some (true, t3)
        | _ => none
      else some (true, t1)
  | _ => none

/-- `BPlusTree::Insert` (b_plus_tree.cpp lines 82-94): start a new tree
when empty, else insert into the proper leaf. -/
def BPlusTree.Insert (t : BPlusTree) (key : Int) (value : Nat) : Option (Bool × BPlusTree) :=
  if t.root_page_id = -1 then some (true, StartNewTree t key value)
  else InsertIntoLeaf t key value

/- ----------------------------------------------------------------------
   B+tree redistribution after deletion underflow
   ---------------------------------------------------------------------- -/

/-- `BPlusTreeInternalPage::Remove` (b_plus_tree_internal_page.cpp
lines 185-190): decrement the size and shift the slots after `index`
left — i.e. remove the slot at `index`. -/
def Internal_Remove (slots : List (Int × Int)) (index : Nat) : List (Int × Int) :=
  slots.eraseIdx index

/-- `SetKeyAt` on an internal node's live slots. -/
def Internal_SetKeyAt (slots : List (Int × Int)) (index : Nat) (key : Int) :
    List (Int × Int) :=
  match slots.get? index with
  | none => slots
  | some s => slots.set index (key, s.2)

/-- `BPlusTreeLeafPage::MoveFirstToEndOf` (b_plus_tree_leaf_page.cpp
lines 220-228) with `CopyLastFrom` (lines 234-237): append the source
leaf's first entry to the recipient, then remove it from the source
(size decrement plus left shift). -/
def Leaf_MoveFirstToEndOf (t : BPlusTree) (src_pid recip_pid : Int) :
    Option BPlusTree :=
  match getNode t src_pid, getNode t recip_pid with
  | some (BPTNode.leaf sp sm (e :: srest) snext), some (BPTNode.leaf rp rm rents rnext) =>
    let t1 := putNode t recip_pid (BPTNode.leaf rp rm (rents ++ [e]) rnext)
    some (putNode t1 src_pid (BPTNode.leaf sp sm srest snext))
  | _, _ => none

/-- `BPlusTreeLeafPage::MoveLastToFrontOf` (b_plus_tree_leaf_page.cpp
lines 243-246) with `CopyFirstFrom` (lines 252-259): prepend the source
leaf's last entry to the recipient, then drop it from the source. -/
def Leaf_MoveLastToFrontOf (t : BPlusTree) (src_pid recip_pid : Int) :
    Option BPlusTree :=
  match getNode t src_pid, getNode t recip_pid with
  | some (BPTNode.leaf sp sm sents snext), some (BPTNode.leaf rp rm rents rnext) =>
    match sents.getLast? with
    | none => none
    | some e =>
      let t1 := putNode t recip_pid (BPTNode.leaf rp rm (e :: rents) rnext)
      some (putNode t1 src_pid (BPTNode.leaf sp sm sents.dropLast snext))
  | _, _ => none

/-- `BPlusTreeInternalPage::CopyLastFrom` (b_plus_tree_internal_page.cpp
lines 253-263): append the slot and adopt the moved child (update its
parent pointer through the buffer pool). -/
def Internal_CopyLastFrom (t : BPlusTree) (recip_pid : Int) (item : Int × Int) :
    Option BPlusTree :=
  match getNode t recip_pid with
  | some (BPTNode.internal rp rm rslots) =>
    let t1 := putNode t recip_pid (BPTNode.internal rp rm (rslots ++ [item]))
    some (setParentOf t1 item.2 recip_pid)
  | _ => none

/-- `BPlusTreeInternalPage::CopyFirstFrom` (b_plus_tree_internal_page.cpp
lines 287-300): shift right, place the slot at index 0, adopt the moved
child. -/
def Internal_CopyFirstFrom (t : BPlusTree) (recip_pid : Int) (item : Int × Int) :
    Option BPlusTree :=
  match getNode t recip_pid with
  | some (BPTNode.internal rp rm rslots) =>
    let t1 := putNode t recip_pid (BPTNode.internal rp rm (item :: rslots))
    some (setParentOf t1 item.2 recip_pid)
  | _ => none

/-- `BPlusTreeInternalPage::MoveFirstToEndOf` (b_plus_tree_internal_page.cpp
lines 234-246): write the pulled-down separator into the source's slot 0,
append that slot to the recipient (`CopyLastFrom`), then `Remove(0)` —
which already decrements the size and shifts — followed by ANOTHER
`IncreaseSize(-1)` (line 245), which silently drops the source's last
live slot as well. -/
def Internal_MoveFirstToEndOf (t : BPlusTree) (src_pid recip_pid : Int)
    (middle_key : Int) : Option BPlusTree := do
  match getNode t src_pid with
  | some (BPTNode.internal sp sm sslots) =>
    let sslots0 := Internal_SetKeyAt sslots 0 middle_key
    let t0 := putNode t src_pid (BPTNode.internal sp sm sslots0)
    let t1 ← Internal_CopyLastFrom t0 recip_pid (sslots0.getD 0 (0, -1))
    match getNode t1 src_pid with
    | some (BPTNode.internal sp1 sm1 sslots1) =>
      let afterRemove := Internal_Remove sslots1 0
      some (putNode t1 src_pid (BPTNode.internal sp1 sm1 afterRemove.dropLast))
    | _ => none
  | _ => none

/-- `BPlusTreeInternalPage::MoveLastToFrontOf` (b_plus_tree_internal_page.cpp
lines 273-280): write the pulled-down separator into the recipient's
slot 0, prepend the source's last slot (`CopyFirstFrom`), and drop it
from the source. -/
def Internal_MoveLastToFrontOf (t : BPlusTree) (src_pid recip_pid : Int)
    (middle_key : Int) : Option BPlusTree := do
  match getNode t src_pid, getNode t recip_pid with
  | some (BPTNode.internal sp sm sslots), some (BPTNode.internal rp rm rslots) =>
    match sslots.getLast? with
    | none => none
    | some item =>
      let t0 := putNode t recip_pid (BPTNode.internal rp rm (Internal_SetKeyAt rslots 0 middle_key))
      let t1 ← Internal_CopyFirstFrom t0 recip_pid item
      match getNode t1 src_pid with
      | some (BPTNode.internal sp1 sm1 sslots1) =>
        some (putNode t1 src_pid (BPTNode.internal sp1 sm1 sslots1.dropLast))
      | _ => none
  | _, _ => none

/-- `BPlusTree::Redistribute` (b_plus_tree.cpp lines 576-618): fetch the
parent; for `index == 0` move the successor sibling's first entry to the
end of the node and refresh the parent's key 1; for `index > 0` move the
predecessor sibling's last entry to the front of the node and refresh
the parent's key at `index`.  Internal nodes additionally route the
separator through the parent (`KeyAt(1)` / `KeyAt(index)`). -/
def Redistribute (t : BPlusTree) (neighbor_pid node_pid : Int) (index : Nat) :
    Option BPlusTree := do
  let node ← getNode t node_pid
  let ppid := node.parentOf
  match getNode t ppid with
  | some (BPTNode.internal pp pm pslots) =>
    match node with
    | BPTNode.leaf _ _ _ _ =>
      if index = 0 then do
        let t1 ← Leaf_MoveFirstToEndOf t neighbor_pid node_pid
        match getNode t1 neighbor_pid with
        | some (BPTNode.leaf _ _ nents _) =>
          some (putNode t1 ppid
            (BPTNode.internal pp pm (Internal_SetKeyAt pslots 1 (nents.getD 0 (0, 0)).1)))
        | _ => none
      else do
        let t1 ← Leaf_MoveLastToFrontOf t neighbor_pid node_pid
        match getNode t1 node_pid with
        | some (BPTNode.leaf _ _ nents _) =>
          some (putNode t1 ppid
            (BPTNode.internal pp pm (Internal_SetKeyAt pslots index (nents.getD 0 (0, 0)).1)))
        | _ => none
    | BPTNode.internal _ _ _ =>
      if index = 0 then do
        let t1 ← Internal_MoveFirstToEndOf t neighbor_pid node_pid ((pslots.getD 1 (0, -1)).1)
        match getNode t1 neighbor_pid with
        | some (BPTNode.internal _ _ nslots) =>
          some (putNode t1 ppid
            (BPTNode.internal pp pm (Internal_SetKeyAt pslots 1 (nslots.getD 0 (0, -1)).1)))
        | _ => none
      else do
        let t1 ← Internal_MoveLastToFrontOf t neighbor_pid node_pid ((pslots.getD index (0, -1)).1)
        match getNode t1 node_pid with
        | some (BPTNode.internal _ _ nslots) =>
          some (putNode t1 ppid
            (BPTNode.internal pp pm (Internal_SetKeyAt pslots index (nslots.getD 0 (0, -1)).1)))
        | _ => none
  | _ => none

/-- `GetSize()` of the node stored at `pid` (0 if absent). -/
def nodeSizeAt (t : BPlusTree) (pid : Int) : Nat :=
  match getNode t pid with
  | some (BPTNode.leaf _ _ entries _) => entries.length
  | some (BPTNode.internal _ _ slots) => slots.length
  | none => 0

/-- Example state for the redistribution evaluation: internal parent
(page 10) whose children are the underfull internal node (page 1, over
leaves 3 and 4) and its successor sibling (page 2, over leaves 5, 6,
7); `internal_max_size = 4`, so redistribution (not coalescing) applies. -/
def redistExample : BPlusTree :=
  { root_page_id := 10
    leaf_max_size := 4
    internal_max_size := 4
    pages :=
      [(10, BPTNode.internal (-1) 4 [(0, 1), (50, 2)]),
       (1, BPTNode.internal 10 4 [(0, 3), (20, 4)]),
       (2, BPTNode.internal 10 4 [(0, 5), (60, 6), (70, 7)]),
       (3, BPTNode.leaf 1 4 [(5, 500)] (-1)),
       (4, BPTNode.leaf 1 4 [(20, 501)] (-1)),
       (5, BPTNode.leaf 2 4 [(50, 502)] (-1)),
       (6, BPTNode.leaf 2 4 [(60, 503)] (-1)),
       (7, BPTNode.leaf 2 4 [(70, 504)] (-1))]
    next_alloc := 100 }

/-- Example state for the insert-existing evaluation: a single-leaf
tree holding keys 5 and 8. -/
def getExample : BPlusTree :=
  { root_page_id := 1
    leaf_max_size := 4
    internal_max_size := 4
    pages := [(1, BPTNode.leaf (-1) 4 [(5, 100), (8, 200)] (-1))]
    next_alloc := 2 }

/- ----------------------------------------------------------------------
   Theorems
   ---------------------------------------------------------------------- -/

/-- Helper for C1: the SHARED-mode scan succeeds exactly when every
request before the probed one (which is identified by its transaction
id, unique before it) is granted and SHARED. -/
theorem sharedScan_spec (l1 l2 : List LockRequest) (r : LockRequest)
    (hpre : ∀ p ∈ l1, p.txn_id ≠ r.txn_id) :
    sharedScan (l1 ++ r :: l2) r = true ↔
      ∀ p ∈ l1, p.granted = true ∧ p.lock_mode = LockMode.SHARED := by
  induction l1 with
  | nil => simp [sharedScan]
  | cons p l ih =>
    have hp : p.txn_id ≠ r.txn_id := hpre p (by simp)
    have ih2 := ih (fun q hq => hpre q (by simp [hq]))
    by_cases hg : p.granted = true ∧ p.lock_mode = LockMode.SHARED
    · simp [sharedScan, hp, hg.1, hg.2, ih2]
    · have hfalse : (p.granted && decide (p.lock_mode = LockMode.SHARED)) = false := by
        cases hb : p.granted with
        | false => simp
        | true =>
          simp only [Bool.true_and, decide_eq_false_iff_not]
          intro hm
          exact hg ⟨hb, hm⟩
      constructor
      · intro hs
        exfalso
        simp [sharedScan, hp, hfalse] at hs
      · intro hall
        exact absurd ⟨(hall p (by simp)).1, (hall p (by simp)).2⟩ hg

/-- C1: in a per-RID request queue, a request `r` (with no earlier
request of the same transaction) is grant-compatible exactly as the
spec states: in EXCLUSIVE mode iff `r` is the first request of the
queue; in SHARED mode iff every request preceding `r` in FIFO order is
granted and holds SHARED. -/
theorem IsLockCompatible_correct (l1 l2 : List LockRequest) (r : LockRequest)
    (hpre : ∀ p ∈ l1, p.txn_id ≠ r.txn_id) :
    (r.lock_mode = LockMode.EXCLUSIVE →
      (IsLockCompatible (l1 ++ r :: l2) r = true ↔ l1 = [])) ∧
    (r.lock_mode = LockMode.SHARED →
      (IsLockCompatible (l1 ++ r :: l2) r = true ↔
        ∀ p ∈ l1, p.granted = true ∧ p.lock_mode = LockMode.SHARED)) := by
  constructor
  · intro hx
    cases l1 with
    | nil => simp [IsLockCompatible, hx]
    | cons p l =>
      have hp : p.txn_id ≠ r.txn_id := hpre p (by simp)
      simp [IsLockCompatible, hx, hp]
  · intro hs
    have h1 : IsLockCompatible (l1 ++ r :: l2) r = sharedScan (l1 ++ r :: l2) r := by
      simp [IsLockCompatible, hs]
    rw [h1]
    exact sharedScan_spec l1 l2 r hpre

/-- Witness for C1 at a concrete queue: one granted SHARED request in
front of the probed SHARED request of transaction 2. -/
theorem IsLockCompatible_correct_witness :
    (∀ p ∈ ([⟨1, LockMode.SHARED, true⟩] : List LockRequest),
      p.txn_id ≠ (⟨2, LockMode.SHARED, false⟩ : LockRequest).txn_id) ∧
    (((⟨2, LockMode.SHARED, false⟩ : LockRequest).lock_mode = LockMode.EXCLUSIVE →
      (IsLockCompatible ([⟨1, LockMode.SHARED, true⟩] ++ ⟨2, LockMode.SHARED, false⟩ :: [])
          ⟨2, LockMode.SHARED, false⟩ = true ↔
        ([⟨1, LockMode.SHARED, true⟩] : List LockRequest) = [])) ∧
    ((⟨2, LockMode.SHARED, false⟩ : LockRequest).lock_mode = LockMode.SHARED →
      (IsLockCompatible ([⟨1, LockMode.SHARED, true⟩] ++ ⟨2, LockMode.SHARED, false⟩ :: [])
          ⟨2, LockMode.SHARED, false⟩ = true ↔
        ∀ p ∈ ([⟨1, LockMode.SHARED, true⟩] : List LockRequest),
          p.granted = true ∧ p.lock_mode = LockMode.SHARED))) :=
  ⟨by decide, IsLockCompatible_correct [⟨1, LockMode.SHARED, true⟩] [] ⟨2, LockMode.SHARED, false⟩ (by decide)⟩

/-- C10: unpinning a frame the LRU replacer already tracks leaves the
replacer unchanged — no move to the head, no duplicate entry. -/
theorem LRU_Unpin_tracked_noop (r : LRUReplacer) (f : Nat) (h : f ∈ r.lst) :
    r.Unpin f = r := by
  simp [LRUReplacer.Unpin, h]

/-- Witness for C10 at a concrete replacer. -/
theorem LRU_Unpin_tracked_noop_witness :
    3 ∈ (LRUReplacer.mk [5, 3, 8] 10).lst ∧
      (LRUReplacer.mk [5, 3, 8] 10).Unpin 3 = LRUReplacer.mk [5, 3, 8] 10 :=
  ⟨by decide, LRU_Unpin_tracked_noop (LRUReplacer.mk [5, 3, 8] 10) 3 (by decide)⟩

/-- C2 (evaluation at the failing input): on a resident page with
pin count 0, `DeletePgImp` erases the mapping, resets the metadata to
INVALID, pushes the frame on the free list and deallocates on disk —
and then returns `false`, where the spec requires `true`. -/
theorem DeletePgImp_deletes_but_returns_false :
    DeletePgImp
        { pool_size := 2
          pages := [⟨7, 0, true⟩, ⟨-1, 0, false⟩]
          page_table := [(7, 0)]
          free_list := [1]
          replacer := ⟨[0], 2⟩
          deallocated := [] } 7 =
      (false,
        { pool_size := 2
          pages := [⟨-1, 0, false⟩, ⟨-1, 0, false⟩]
          page_table := []
          free_list := [1, 0]
          replacer := ⟨[0], 2⟩
          deallocated := [7] }) := by
  decide

/-- C3 (evaluation at the failing input): page 4 is resident and dirty;
`UnpinPgImp page_id false` overwrites the dirty bit with `false`
(plain assignment instead of the monotonic OR the spec states), losing
the dirty mark. -/
theorem UnpinPgImp_clears_dirty_bit :
    (({ pool_size := 1, pages := [⟨4, 1, true⟩], page_table := [(4, 0)],
        free_list := [], replacer := ⟨[], 1⟩, deallocated := [] } : BufferPool).pages.getD 0
        default).is_dirty = true ∧
    UnpinPgImp
        { pool_size := 1, pages := [⟨4, 1, true⟩], page_table := [(4, 0)],
          free_list := [], replacer := ⟨[], 1⟩, deallocated := [] } 4 false =
      (true,
        { pool_size := 1, pages := [⟨4, 0, false⟩], page_table := [(4, 0)],
          free_list := [], replacer := ⟨[0], 1⟩, deallocated := [] }) := by
  decide

/-- C7 (evaluation at the failing input): `UnpinPgImp` on a page id
that is not resident returns `false` but INSERTS the mapping
`5 ↦ frame 0` into the page table (std::unordered_map operator[]
default-insertion), mutating the page table on a failing operation. -/
theorem UnpinPgImp_nonresident_inserts_mapping :
    ({ pool_size := 1, pages := [⟨-1, 0, false⟩], page_table := [],
       free_list := [0], replacer := ⟨[], 1⟩, deallocated := [] } : BufferPool).page_table = [] ∧
    UnpinPgImp
        { pool_size := 1, pages := [⟨-1, 0, false⟩], page_table := [],
          free_list := [0], replacer := ⟨[], 1⟩, deallocated := [] } 5 false =
      (false,
        { pool_size := 1, pages := [⟨-1, 0, false⟩], page_table := [(5, 0)],
          free_list := [0], replacer := ⟨[], 1⟩, deallocated := [] }) := by
  decide

/-- C6 (evaluation at the failing input): transaction 1 successfully
unlocks rid 9 (first conjunct shows the exact result), and the second
`Unlock` of the same rid — whose request is no longer in the queue —
also returns `true`, where the spec requires `false`. -/
theorem Unlock_second_call_returns_true :
    Unlock ⟨1, IsolationLevel.REPEATABLE_READ, TransactionState.GROWING, [9], []⟩
        [⟨1, LockMode.SHARED, true⟩] 9 =
      (true, ⟨1, IsolationLevel.REPEATABLE_READ, TransactionState.SHRINKING, [], []⟩, []) ∧
    (Unlock ⟨1, IsolationLevel.REPEATABLE_READ, TransactionState.SHRINKING, [], []⟩ [] 9).1 =
      true := by
  decide

/-- C4 (evaluation at the failing input): redistribution between
internal nodes with `index == 0`.  Before: the sibling (page 2) has
size 3 and the node (page 1) size 2.  After `Redistribute`, the node
correctly grew to 3, but the sibling shrank to size 1 — two entries
were removed (its slot `(70, 7)` was silently dropped by the double
size decrement in `MoveFirstToEndOf`), where the claim requires the
sibling to shrink by exactly one. -/
theorem Redistribute_internal_first_shrinks_sibling_by_two :
    nodeSizeAt redistExample 2 = 3 ∧ nodeSizeAt redistExample 1 = 2 ∧
    (Redistribute redistExample 2 1 0).map (fun t => (nodeSizeAt t 2, nodeSizeAt t 1)) =
      some (1, 3) ∧
    (Redistribute redistExample 2 1 0).map (fun t => getNode t 2) =
      some (some (BPTNode.internal 10 4 [(60, 6)])) := by
  decide

/-- Helper for C9: the back-to-front table rewind loop equals mapping
the inverse over the reversed log. -/
theorem rewindTableWrites_eq (ws : List TableWriteRecord) :
    rewindTableWrites ws = ws.reverse.map tableUndo := by
  induction ws using List.reverseRecOn with
  | nil => simp [rewindTableWrites]
  | append_singleton l a ih =>
    rw [rewindTableWrites]
    split
    · rename_i heq
      rw [List.getLast?_concat] at heq
      cases heq
    · rename_i item heq
      rw [List.getLast?_concat] at heq
      cases heq
      simp [List.dropLast_concat, ih]

/-- Helper for C9: the back-to-front index rewind loop equals flat-
mapping the inverse over the reversed log. -/
theorem rewindIndexWrites_eq (keyOf : Nat → Nat → Nat) (ws : List IndexWriteRecord) :
    rewindIndexWrites keyOf ws = ws.reverse.flatMap (indexUndo keyOf) := by
  induction ws using List.reverseRecOn with
  | nil => simp [rewindIndexWrites]
  | append_singleton l a ih =>
    rw [rewindIndexWrites]
    split
    · rename_i heq
      rw [List.getLast?_concat] at heq
      cases heq
    · rename_i item heq
      rw [List.getLast?_concat] at heq
      cases heq
      simp [List.dropLast_concat, ih]

/-- C9: `Abort` sets the state to ABORTED and rewinds the table writes
in reverse log order applying the inverse of each (DELETE →
rollback_delete, INSERT → apply_delete, UPDATE → restore the old
tuple), then the index writes in reverse order (logged insert inverted
by delete, logged delete by insert, update by deleting the new key and
inserting the old key). -/
theorem Abort_rewinds_reverse_inverse (keyOf : Nat → Nat → Nat)
    (tws : List TableWriteRecord) (iws : List IndexWriteRecord) :
    Abort keyOf tws iws =
      (TransactionState.ABORTED,
        tws.reverse.map tableUndo ++ iws.reverse.flatMap (indexUndo keyOf)) := by
  simp [Abort, rewindTableWrites_eq, rewindIndexWrites_eq]

/-- C5: for a key already present in the tree (`GetValue` returns its
value), `Insert` returns `false` and leaves the tree unchanged, so a
subsequent `GetValue` still returns the prior value. -/
theorem Insert_existing_key_noop (t : BPlusTree) (k : Int) (v v2 : Nat)
    (h : GetValue t k = some v) :
    BPlusTree.Insert t k v2 = some (false, t) ∧
      (BPlusTree.Insert t k v2).map (fun r => GetValue r.2 k) = some (some v) := by
  have h0 := h
  unfold GetValue at h
  cases hf : findLeafPid t k (treeFuel t) t.root_page_id with
  | none => rw [hf] at h; simp at h
  | some pid =>
    simp only [hf] at h
    cases hg : getNode t pid with
    | none => simp only [hg] at h; simp at h
    | some node =>
      cases node with
      | internal p m s => simp only [hg] at h; simp at h
      | leaf parent m entries next =>
        simp only [hg] at h
        have hroot : ¬ t.root_page_id = -1 := by
          intro hr
          rw [hr] at hf
          simp [treeFuel, findLeafPid, getNode] at hf
        have hIL : InsertIntoLeaf t k v2 = some (false, t) := by
          unfold InsertIntoLeaf
          rw [hf]
          simp [hg, h]
        have hins : BPlusTree.Insert t k v2 = some (false, t) := by
          unfold BPlusTree.Insert
          rw [if_neg hroot]
          exact hIL
        exact ⟨hins, by rw [hins, Option.map]; exact congrArg some h0⟩

/-- Witness for C5 at a concrete single-leaf tree holding key 5. -/
theorem Insert_existing_key_noop_witness :
    GetValue getExample 5 = some 100 ∧
      (BPlusTree.Insert getExample 5 999 = some (false, getExample) ∧
        (BPlusTree.Insert getExample 5 999).map (fun r => GetValue r.2 5) =
          some (some 100)) :=
  ⟨by decide, Insert_existing_key_noop getExample 5 100 999 (by decide)⟩

/- Helper lemmas for C8 (deadlock detector correctness). -/

/-- Lookup in a consed visited map. -/
theorem lookupV_cons (v : Nat) (m : VisitedType) (vm : VMap) (w : Nat) :
    lookupV ((v, m) :: vm) w = if v = w then some m else lookupV vm w := by
  by_cases h : v = w
  · simp [lookupV, List.lookup, h]
  · have hb : (w == v) = false := by
      simp [Ne.symm h]
    simp [lookupV, List.lookup, h, hb]

/-- An entry's key always looks up to something. -/
theorem lookupV_ne_none_of_mem {vm : VMap} {v : Nat} {m : VisitedType}
    (h : (v, m) ∈ vm) : lookupV vm v ≠ none := by
  induction vm with
  | nil => simp at h
  | cons e vm ih =>
    rcases List.mem_cons.mp h with h1 | h1
    · cases e
      cases h1
      simp [lookupV_cons]
    · cases e with
      | mk k val =>
        rw [lookupV_cons]
        by_cases he : k = v
        · simp [he]
        · simp only [he, if_false]
          exact ih h1

/-- `foldl max a` bounds every element. -/
theorem foldl_max_le_of_mem (l : List Nat) : ∀ a, ∀ x ∈ l, x ≤ l.foldl max a := by
  induction l with
  | nil => intro a x hx; simp at hx
  | cons y ys ih =>
    intro a x hx
    rcases List.mem_cons.mp hx with h1 | h1
    · subst h1
      calc x ≤ max a x := le_max_right a x
        _ ≤ ys.foldl max (max a x) := by
          clear ih hx
          induction ys generalizing a x with
          | nil => simp
          | cons z zs ihz =>
            simp only [List.foldl_cons]
            calc max a x ≤ max (max a x) z := le_max_left _ _
              _ ≤ zs.foldl max (max (max a x) z) := by
                have := ihz (max a x) z  -- not quite; use generic lemma below
                exact ihz (max a x) z
    · exact ih (max a y) x h1

/-- `foldl max a l` is `a` or an element of `l`. -/
theorem foldl_max_mem_or (l : List Nat) : ∀ a, l.foldl max a = a ∨ l.foldl max a ∈ l := by
  induction l with
  | nil => intro a; simp
  | cons y ys ih =>
    intro a
    rcases ih (max a y) with h1 | h1
    · simp only [List.foldl_cons]
      rcases Nat.le_total a y with hy | hy
      · right
        rw [h1, max_eq_right hy]
        simp
      · left
        rw [h1, max_eq_left hy]
    · right
      simp only [List.foldl_cons]
      exact List.mem_cons_of_mem y h1

/-- For a nonempty list, `foldl max 0` is one of its elements. -/
theorem foldl_max_mem (l : List Nat) (hl : l ≠ []) : l.foldl max 0 ∈ l := by
  rcases foldl_max_mem_or l 0 with h | h
  · cases l with
    | nil => exact absurd rfl hl
    | cons y ys =>
      have hy : y ≤ (y :: ys).foldl max 0 := foldl_max_le_of_mem (y :: ys) 0 y (by simp)
      rw [h] at hy
      have : y = 0 := Nat.le_zero.mp hy
      rw [h, ← this]
      simp
  · exact h

/-- Appending one vertex to a chain. -/
theorem chainB_snoc (g : WaitsFor) :
    ∀ (l : List Nat) (a w : Nat),
      chainB g a (l ++ [w]) =
        (chainB g a l && edgeB g ((a :: l).getLast (List.cons_ne_nil a l)) w) := by
  intro l
  induction l with
  | nil =>
    intro a w
    simp [chainB]
  | cons x l ih =>
    intro a w
    have h1 : chainB g a ((x :: l) ++ [w]) = (edgeB g a x && chainB g x (l ++ [w])) := rfl
    rw [h1, ih x w]
    have h2 : (a :: x :: l).getLast (List.cons_ne_nil a (x :: l)) =
        (x :: l).getLast (List.cons_ne_nil x l) := List.getLast_cons (List.cons_ne_nil x l)
    rw [h2]
    have h3 : chainB g a (x :: l) = (edgeB g a x && chainB g x l) := rfl
    rw [h3, Bool.and_assoc]

/-- The cycle segment of the stack, reversed, is a path from the
back-edge target `v` up to the stack top. -/
theorem cycleSeg_parts (g : WaitsFor) :
    ∀ (rest : List Nat) (u v : Nat),
      stackChainB g (u :: rest) = true → v ∈ u :: rest →
      ∃ r', (cycleSeg (u :: rest) v).reverse = v :: r' ∧ chainB g v r' = true ∧
        (v :: r').getLast (List.cons_ne_nil v r') = u := by
  intro rest
  induction rest with
  | nil =>
    intro u v _ hv
    have huv : v = u := by simpa using hv
    subst huv
    refine ⟨[], by simp [cycleSeg], by simp [chainB], by simp⟩
  | cons b rest ih =>
    intro u v hchain hv
    by_cases huv : u = v
    · subst huv
      refine ⟨[], by simp [cycleSeg], by simp [chainB], by simp⟩
    · have hv2 : v ∈ b :: rest := by
        rcases List.mem_cons.mp hv with h | h
        · exact absurd h.symm huv
        · exact h
      have hsplit : edgeB g b u = true ∧ stackChainB g (b :: rest) = true := by
        have heq : stackChainB g (u :: b :: rest) =
            (edgeB g b u && stackChainB g (b :: rest)) := rfl
        rw [heq] at hchain
        simpa [Bool.and_eq_true] using hchain
      have hchain2 : stackChainB g (b :: rest) = true := hsplit.2
      have hedge : edgeB g b u = true := hsplit.1
      obtain ⟨r0, hrev, hch, hlast⟩ := ih b v hchain2 hv2
      have hseg : cycleSeg (u :: b :: rest) v = u :: cycleSeg (b :: rest) v := by
        simp [cycleSeg, Ne.symm huv, huv]
      refine ⟨r0 ++ [u], ?_, ?_, ?_⟩
      · rw [hseg]
        simp only [List.reverse_cons, hrev]
        rfl
      · rw [chainB_snoc g r0 v u, hch, hlast, hedge]
        rfl
      · show ((v :: r0) ++ [u]).getLast _ = u
        simp

/-- Soundness core: a back edge from the stack top `u` to an IN_STACK
vertex `v` yields a real cycle whose maximum transaction id is the
value `GetYoungestTransactionInCycle` computes. -/
theorem cycle_from_backedge (g : WaitsFor) (u v : Nat) (rest : List Nat)
    (hchain : stackChainB g (u :: rest) = true) (hv : v ∈ u :: rest)
    (hedge : edgeB g u v = true) :
    CycleConcl g (GetYoungestTransactionInCycle (u :: rest) v) := by
  obtain ⟨r', hrev, hch, hlast⟩ := cycleSeg_parts g rest u v hchain hv
  have hsegne : cycleSeg (u :: rest) v ≠ [] := by
    intro h0
    rw [h0] at hrev
    simp at hrev
  refine ⟨(cycleSeg (u :: rest) v).reverse, ?_, ?_, ?_⟩
  · rw [hrev]
    have : isCycleList g (v :: r') =
        (chainB g v r' && edgeB g ((v :: r').getLast (by simp)) v) := rfl
    rw [this, hch, hlast, hedge]
    rfl
  · rw [GetYoungestTransactionInCycle]
    rw [List.mem_reverse]
    exact foldl_max_mem _ hsegne
  · intro x hx
    rw [List.mem_reverse] at hx
    exact foldl_max_le_of_mem _ 0 x hx

/-- Lookup over an append is none only if both halves miss the key. -/
theorem lookupV_append_none (p s : VMap) (x : Nat)
    (h : lookupV (p ++ s) x = none) : lookupV s x = none := by
  induction p with
  | nil => exact h
  | cons e p ih =>
    cases e with
    | mk k m =>
      rw [List.cons_append, lookupV_cons] at h
      by_cases hk : k = x
      · rw [if_pos hk] at h
        cases h
      · rw [if_neg hk] at h
        exact ih h

/-- Marks are never removed: a suffix-extension has no fresh unmarked
vertices. -/
theorem countUnmarked_mono (g : WaitsFor) (vm vm' : VMap)
    (h : List.IsSuffix vm vm') : countUnmarked g vm' ≤ countUnmarked g vm := by
  obtain ⟨p, rfl⟩ := h
  apply List.Sublist.length_le
  apply List.monotone_filter_right
  intro a ha
  simp only [Option.isNone_iff_eq_none, decide_eq_true_eq] at ha ⊢
  exact lookupV_append_none p vm a ha

/-- Pointwise-smaller filters over a list with a strict witness give a
strictly shorter result. -/
theorem filter_length_lt (p q : Nat → Bool) (v : Nat) :
    ∀ (l : List Nat), v ∈ l → (∀ x, q x = true → p x = true) →
      p v = true → q v = false →
      (l.filter q).length < (l.filter p).length := by
  intro l
  induction l with
  | nil => intro hv; simp at hv
  | cons x xs ih =>
    intro hv himp hpv hqv
    by_cases hx : x = v
    · subst hx
      rw [List.filter_cons, List.filter_cons, hpv, hqv]
      simp only [if_true, if_false]
      have hle : (xs.filter q).length ≤ (xs.filter p).length :=
        List.Sublist.length_le (List.monotone_filter_right xs himp)
      simpa using Nat.lt_succ_of_le hle
    · have hv2 : v ∈ xs := by
        rcases List.mem_cons.mp hv with h | h
        · exact absurd h.symm hx
        · exact h
      have hlt := ih hv2 himp hpv hqv
      rw [List.filter_cons, List.filter_cons]
      cases hqx : q x with
      | true =>
        rw [himp x hqx]
        simpa using Nat.succ_lt_succ hlt
      | false =>
        cases hpx : p x with
        | true => simpa using Nat.lt_succ_of_lt hlt
        | false => simpa using hlt

/-- `waits_for_` read access on a cons cell. -/
theorem adjOf_cons (k : Nat) (l : List Nat) (g : WaitsFor) (u : Nat) :
    adjOf ((k, l) :: g) u = if u = k then l else adjOf g u := by
  by_cases h : u = k
  · simp [adjOf, List.lookup, h]
  · have hb : (u == k) = false := by simp [h]
    simp [adjOf, List.lookup, hb, h]

/-- A neighbor of any vertex occurs in `allVerts`. -/
theorem mem_allVerts_of_adj (g : WaitsFor) (u x : Nat)
    (h : x ∈ adjOf g u) : x ∈ allVerts g := by
  induction g with
  | nil => simp [adjOf, List.lookup] at h
  | cons e g ih =>
    cases e with
    | mk k l =>
      rw [adjOf_cons] at h
      rw [allVerts]
      simp only [List.foldr_cons]
      by_cases hk : u = k
      · rw [if_pos hk] at h
        exact List.mem_cons_of_mem _ (List.mem_append.mpr (Or.inl h))
      · rw [if_neg hk] at h
        have h2 := ih h
        rw [allVerts] at h2
        exact List.mem_cons_of_mem _ (List.mem_append.mpr (Or.inr h2))

/-- A key of the map occurs in `allVerts`. -/
theorem mem_allVerts_of_key (g : WaitsFor) (u : Nat)
    (h : u ∈ g.map Prod.fst) : u ∈ allVerts g := by
  induction g with
  | nil => simp at h
  | cons e g ih =>
    cases e with
    | mk k l =>
      rw [allVerts]
      simp only [List.foldr_cons]
      rw [List.map_cons] at h
      rcases List.mem_cons.mp h with h1 | h1
      · subst h1
        exact List.mem_cons_self _ _
      · have h2 := ih h1
        rw [allVerts] at h2
        exact List.mem_cons_of_mem _ (List.mem_append.mpr (Or.inr h2))

/-- Marking an unmarked graph vertex strictly decreases the unmarked
count. -/
theorem countUnmarked_lt (g : WaitsFor) (vm : VMap) (v : Nat) (m : VisitedType)
    (hv : v ∈ allVerts g) (hun : lookupV vm v = none) :
    countUnmarked g ((v, m) :: vm) < countUnmarked g vm := by
  apply filter_length_lt _ _ v
  · exact List.mem_dedup.mpr hv
  · intro x hx
    simp only [Option.isNone_iff_eq_none, decide_eq_true_eq] at hx ⊢
    rw [lookupV_cons] at hx
    by_cases hxv : v = x
    · rw [if_pos hxv] at hx
      cases hx
    · rwa [if_neg hxv] at hx
  · simp [hun]
  · simp [lookupV_cons]

/-- The unmarked count is always below the DFS fuel. -/
theorem countUnmarked_lt_fuelFor (g : WaitsFor) (vm : VMap) :
    countUnmarked g vm < fuelFor g := by
  rw [countUnmarked, fuelFor]
  have h1 : ((allVerts g).dedup.filter fun x => (lookupV vm x).isNone).length ≤
      (allVerts g).dedup.length := List.length_filter_le _ _
  have h2 : (allVerts g).dedup.length ≤ (allVerts g).length :=
    List.Sublist.length_le (List.dedup_sublist _)
  omega

/-- An edge is membership in the adjacency list. -/
theorem edgeB_of_mem (g : WaitsFor) (u v : Nat) (h : v ∈ adjOf g u) :
    edgeB g u v = true := by
  simpa [edgeB] using h

/-- Membership in the adjacency list from an edge. -/
theorem mem_of_edgeB (g : WaitsFor) (u v : Nat) (h : edgeB g u v = true) :
    v ∈ adjOf g u := by
  simpa [edgeB] using h

/-- Consing a non-VISITED mark preserves the finish-order property. -/
theorem visitedClosed_cons (g : WaitsFor) (vm : VMap) (v : Nat) (m : VisitedType)
    (hm : m ≠ VisitedType.VISITED) (h : visitedClosed g vm) :
    visitedClosed g ((v, m) :: vm) := by
  intro pre u post heq x hx
  cases pre with
  | nil =>
    simp only [List.nil_append] at heq
    cases heq
    exact absurd rfl hm
  | cons e pre =>
    rw [List.cons_append] at heq
    injection heq with he ht
    exact h pre u post ht x hx

/-- Consing a VISITED mark whose neighbors are all VISITED preserves
the finish-order property. -/
theorem visitedClosed_cons_visited (g : WaitsFor) (vm : VMap) (u : Nat)
    (hadj : ∀ x ∈ adjOf g u, lookupV vm x = some VisitedType.VISITED)
    (h : visitedClosed g vm) : visitedClosed g ((u, VisitedType.VISITED) :: vm) := by
  intro pre w post heq x hx
  cases pre with
  | nil =>
    simp only [List.nil_append] at heq
    cases heq
    exact hadj x hx
  | cons e pre =>
    rw [List.cons_append] at heq
    cases heq
    exact h pre w post rfl x hx

/-- A VISITED entry is a key of the VISITED filter. -/
theorem visEntry_iff_mem_filter (vm : VMap) (u : Nat) :
    visEntry vm u ↔
      u ∈ (vm.filter (fun e => e.2 = VisitedType.VISITED)).map Prod.fst := by
  constructor
  · intro h
    exact List.mem_map.mpr ⟨(u, VisitedType.VISITED),
      List.mem_filter.mpr ⟨h, by simp⟩, rfl⟩
  · intro h
    obtain ⟨e, he, heq⟩ := List.mem_map.mp h
    have he2 := List.mem_filter.mp he
    have hval : e.2 = VisitedType.VISITED := by simpa using he2.2
    have : e = (u, VisitedType.VISITED) := by
      cases e
      simp only [Prod.mk.injEq]
      exact ⟨heq, hval⟩
    rw [visEntry, ← this]
    exact he2.1

/-- Consing a non-VISITED mark preserves uniqueness of VISITED entries. -/
theorem visNodup_cons (vm : VMap) (v : Nat) (m : VisitedType)
    (hm : m ≠ VisitedType.VISITED) (h : visNodup vm) : visNodup ((v, m) :: vm) := by
  rw [visNodup, List.filter_cons]
  simp only [decide_eq_true_eq]
  rw [if_neg hm]
  exact h

/-- Consing a fresh VISITED mark preserves uniqueness of VISITED
entries. -/
theorem visNodup_cons_visited (vm : VMap) (u : Nat)
    (hu : ¬ visEntry vm u) (h : visNodup vm) :
    visNodup ((u, VisitedType.VISITED) :: vm) := by
  have hfe : ((u, VisitedType.VISITED) :: vm).filter
        (fun e => e.2 = VisitedType.VISITED) =
      (u, VisitedType.VISITED) :: vm.filter (fun e => e.2 = VisitedType.VISITED) := by
    simp [List.filter_cons]
  rw [visNodup, hfe, List.map_cons]
  refine List.Nodup.cons ?_ h
  intro hmem
  exact hu ((visEntry_iff_mem_filter vm u).mpr hmem)

/-- `visNodup` restricts to the tail. -/
theorem visNodup_tail (vm : VMap) (e : Nat × VisitedType)
    (h : visNodup (e :: vm)) : visNodup vm := by
  rw [visNodup, List.filter_cons] at h
  by_cases he : e.2 = VisitedType.VISITED
  · rw [if_pos (by simpa using he)] at h
    rw [List.map_cons] at h
    exact h.of_cons
  · rw [if_neg (by simpa using he)] at h
    exact h

/-- Membership through the sorted insertion of `AddEdge`/`std::sort`. -/
theorem mem_insAsc (x y : Nat) : ∀ (l : List Nat), y ∈ insAsc x l ↔ y = x ∨ y ∈ l := by
  intro l
  induction l with
  | nil => simp [insAsc]
  | cons z zs ih =>
    rw [insAsc]
    by_cases h1 : x ≤ z
    · rw [if_pos h1]
      simp
    · rw [if_neg h1]
      simp only [List.mem_cons, ih]
      tauto

/-- Sorting preserves membership. -/
theorem mem_sortAsc (l : List Nat) (x : Nat) : x ∈ sortAsc l ↔ x ∈ l := by
  induction l with
  | nil => simp [sortAsc]
  | cons y ys ih =>
    rw [sortAsc, List.foldr_cons]
    rw [show List.foldr insAsc [] ys = sortAsc ys from rfl]
    rw [mem_insAsc]
    simp [ih]

/-- Every vertex on a chain has an out-edge or is the final vertex. -/
theorem chain_mem_edge (g : WaitsFor) :
    ∀ (rest : List Nat) (a u : Nat), chainB g a rest = true → u ∈ a :: rest →
      u = (a :: rest).getLast (List.cons_ne_nil a rest) ∨ ∃ w, edgeB g u w = true := by
  intro rest
  induction rest with
  | nil =>
    intro a u _ hu
    left
    simpa using hu
  | cons b rest ih =>
    intro a u hch hu
    have hsplit : edgeB g a b = true ∧ chainB g b rest = true := by
      have heq : chainB g a (b :: rest) = (edgeB g a b && chainB g b rest) := rfl
      rw [heq] at hch
      simpa [Bool.and_eq_true] using hch
    rcases List.mem_cons.mp hu with h1 | h1
    · right
      exact ⟨b, h1 ▸ hsplit.1⟩
    · rcases ih b u hsplit.2 h1 with h2 | h2
      · left
        rw [List.getLast_cons (List.cons_ne_nil b rest)]
        exact h2
      · right
        exact h2

/-- Every vertex of a cycle has an out-edge. -/
theorem cycle_mem_edge (g : WaitsFor) (c : List Nat) (hc : isCycleList g c = true) :
    ∀ u ∈ c, ∃ w, edgeB g u w = true := by
  cases c with
  | nil => cases hc
  | cons v rest =>
    intro u hu
    have hsplit : chainB g v rest = true ∧
        edgeB g ((v :: rest).getLast (by simp)) v = true := by
      have heq : isCycleList g (v :: rest) =
          (chainB g v rest && edgeB g ((v :: rest).getLast (by simp)) v) := rfl
      rw [heq] at hc
      simpa [Bool.and_eq_true] using hc
    rcases chain_mem_edge g rest v u hsplit.1 hu with h1 | h1
    · exact ⟨v, h1 ▸ hsplit.2⟩
    · exact h1

/-- An out-edge makes the vertex a key of the map. -/
theorem key_of_edge (g : WaitsFor) (u w : Nat) (h : edgeB g u w = true) :
    u ∈ g.map Prod.fst := by
  induction g with
  | nil => simp [edgeB, adjOf, List.lookup] at h
  | cons e g ih =>
    cases e with
    | mk k l =>
      rw [edgeB, adjOf_cons] at h
      rw [List.map_cons]
      by_cases hk : u = k
      · subst hk
        exact List.mem_cons_self _ _
      · rw [if_neg hk] at h
        exact List.mem_cons_of_mem _ (ih h)

/-- A successful lookup splits the map at (the first occurrence of) the
key. -/
theorem lookupV_split (vm : VMap) (x : Nat) (val : VisitedType)
    (h : lookupV vm x = some val) : ∃ p s, vm = p ++ (x, val) :: s := by
  induction vm with
  | nil => cases h
  | cons e vm ih =>
    cases e with
    | mk k m =>
      rw [lookupV_cons] at h
      by_cases hk : k = x
      · rw [if_pos hk] at h
        injection h with hm
        exact ⟨[], vm, by rw [hk, hm]; simp⟩
      · rw [if_neg hk] at h
        obtain ⟨p, s, hp⟩ := ih h
        exact ⟨(k, m) :: p, s, by rw [hp]; rfl⟩

/-- With unique VISITED entries, any two decompositions at the same
vertex's VISITED entry have the same tail. -/
theorem visited_suffix_unique (u : Nat) :
    ∀ (p1 : VMap) (vm : VMap) (p2 s1 s2 : VMap), visNodup vm →
      vm = p1 ++ (u, VisitedType.VISITED) :: s1 →
      vm = p2 ++ (u, VisitedType.VISITED) :: s2 → s1.length = s2.length := by
  intro p1
  induction p1 with
  | nil =>
    intro vm p2 s1 s2 hnd h1 h2
    rw [List.nil_append] at h1
    cases p2 with
    | nil =>
      rw [List.nil_append] at h2
      rw [h1] at h2
      injection h2 with he ht
      rw [ht]
    | cons f p2 =>
      exfalso
      rw [List.cons_append] at h2
      rw [h1] at h2
      injection h2 with he ht
      have hmem : (u, VisitedType.VISITED) ∈ s1 := by
        rw [ht]
        exact List.mem_append.mpr (Or.inr (List.mem_cons_self _ _))
      have hnd2 : visNodup ((u, VisitedType.VISITED) :: s1) := h1 ▸ hnd
      have hfe : ((u, VisitedType.VISITED) :: s1).filter
            (fun e => e.2 = VisitedType.VISITED) =
          (u, VisitedType.VISITED) :: s1.filter (fun e => e.2 = VisitedType.VISITED) := by
        simp [List.filter_cons]
      rw [visNodup, hfe, List.map_cons] at hnd2
      have := (List.nodup_cons.mp hnd2).1
      exact this ((visEntry_iff_mem_filter s1 u).mp hmem)
  | cons e p1 ih =>
    intro vm p2 s1 s2 hnd h1 h2
    rw [List.cons_append] at h1
    cases p2 with
    | nil =>
      exfalso
      rw [List.nil_append] at h2
      rw [h2] at h1
      injection h1 with he ht
      have hmem : (u, VisitedType.VISITED) ∈ s2 := by
        rw [ht]
        exact List.mem_append.mpr (Or.inr (List.mem_cons_self _ _))
      have hnd2 : visNodup ((u, VisitedType.VISITED) :: s2) := h2 ▸ hnd
      have hfe : ((u, VisitedType.VISITED) :: s2).filter
            (fun e => e.2 = VisitedType.VISITED) =
          (u, VisitedType.VISITED) :: s2.filter (fun e => e.2 = VisitedType.VISITED) := by
        simp [List.filter_cons]
      rw [visNodup, hfe, List.map_cons] at hnd2
      have := (List.nodup_cons.mp hnd2).1
      exact this ((visEntry_iff_mem_filter s2 u).mp hmem)
    | cons f p2 =>
      rw [List.cons_append] at h2
      cases vm with
      | nil => cases h1
      | cons e0 vm =>
        injection h1 with he1 ht1
        injection h2 with he2 ht2
        exact ih vm p2 s1 s2 (visNodup_tail vm e0 hnd) ht1 ht2

/-- Descending a chain from a VISITED vertex: the finish-order property
pushes the decomposition strictly deeper at every edge. -/
theorem closure_desc (g : WaitsFor) (vm : VMap) (hcl : visitedClosed g vm) :
    ∀ (path : List Nat) (a : Nat) (p s : VMap), chainB g a path = true →
      vm = p ++ (a, VisitedType.VISITED) :: s →
      ∃ p' s', vm = p' ++ ((a :: path).getLast (List.cons_ne_nil a path),
          VisitedType.VISITED) :: s' ∧
        s'.length + path.length ≤ s.length := by
  intro path
  induction path with
  | nil =>
    intro a p s _ heq
    exact ⟨p, s, by simpa using heq, by simp⟩
  | cons b path ih =>
    intro a p s hch heq
    have hsplit : edgeB g a b = true ∧ chainB g b path = true := by
      have h0 : chainB g a (b :: path) = (edgeB g a b && chainB g b path) := rfl
      rw [h0] at hch
      simpa [Bool.and_eq_true] using hch
    have hb : lookupV s b = some VisitedType.VISITED :=
      hcl p a s heq b (mem_of_edgeB g a b hsplit.1)
    obtain ⟨p2, s2, hs⟩ := lookupV_split s b VisitedType.VISITED hb
    have heq2 : vm = (p ++ (a, VisitedType.VISITED) :: p2) ++
        (b, VisitedType.VISITED) :: s2 := by
      rw [heq, hs]
      simp
    obtain ⟨p', s', heq', hlen'⟩ := ih b _ _ hsplit.2 heq2
    refine ⟨p', s', ?_, ?_⟩
    · rw [List.getLast_cons (List.cons_ne_nil b path)]
      exact heq'
    · have hslen : s.length = p2.length + 1 + s2.length := by
        rw [hs]
        simp
        omega
      simp only [List.length_cons]
      omega

/-- A three-color DFS final state with the finish-order property and
unique VISITED entries cannot have every vertex of a cycle VISITED. -/
theorem closure_no_cycle (g : WaitsFor) (vm : VMap) (hcl : visitedClosed g vm)
    (hnd : visNodup vm) (c : List Nat) (hc : isCycleList g c = true)
    (hall : ∀ x ∈ c, lookupV vm x = some VisitedType.VISITED) : False := by
  cases c with
  | nil => cases hc
  | cons v rest =>
    have hsplit : chainB g v rest = true ∧
        edgeB g ((v :: rest).getLast (by simp)) v = true := by
      have heq : isCycleList g (v :: rest) =
          (chainB g v rest && edgeB g ((v :: rest).getLast (by simp)) v) := rfl
      rw [heq] at hc
      simpa [Bool.and_eq_true] using hc
    obtain ⟨p, s, heq⟩ := lookupV_split vm v VisitedType.VISITED
      (hall v (List.mem_cons_self _ _))
    obtain ⟨p', s', heq', hlen'⟩ := closure_desc g vm hcl rest v p s hsplit.1 heq
    have hv : lookupV s' v = some VisitedType.VISITED :=
      hcl p' _ s' heq' v (mem_of_edgeB g _ v hsplit.2)
    obtain ⟨p2, s2, hs2⟩ := lookupV_split s' v VisitedType.VISITED hv
    have heq2 : vm = (p' ++ ((v :: rest).getLast (by simp), VisitedType.VISITED) :: p2) ++
        (v, VisitedType.VISITED) :: s2 := by
      rw [heq', hs2]
      simp
    have huniq : s.length = s2.length :=
      visited_suffix_unique v p vm _ s s2 hnd heq heq2
    have hs2len : s'.length = p2.length + 1 + s2.length := by
      rw [hs2]
      simp
      omega
    omega

/-- Master lemma for `ProcessDFSTree`: under the activation invariants
and with fuel above the unmarked count, a `some` result is the maximum
of a real cycle, and a `none` result restores the invariants with the
stack top finished. -/
theorem dfsVisit_master (g : WaitsFor) :
    ∀ (fuel : Nat) (stack : List Nat) (vm : VMap), DfsPre g stack vm →
      countUnmarked g vm < fuel →
      (∀ t vm', dfsVisit g fuel stack vm = (some t, vm') → CycleConcl g t) ∧
      (∀ vm', dfsVisit g fuel stack vm = (none, vm') →
        DfsPostNone g (stack.headD 0) vm vm') := by
  intro fuel
  induction fuel with
  | zero =>
    intro stack vm _ hcnt
    exact absurd hcnt (Nat.not_lt_zero _)
  | succ fuel ihf =>
    intro stack vm hpre hcnt
    obtain ⟨hne, hchain, hd, hm, hnv, hcl, hnd, hl2⟩ := hpre
    obtain ⟨u, rest, rfl⟩ : ∃ u rest, stack = u :: rest := by
      cases stack with
      | nil => exact absurd rfl hne
      | cons a l => exact ⟨a, l, rfl⟩
    have loop : ∀ (ns : List Nat) (vm0 : VMap),
        DfsPre g (u :: rest) vm0 →
        (∃ done, adjOf g u = done ++ ns ∧
          ∀ x ∈ done, lookupV vm0 x = some VisitedType.VISITED) →
        countUnmarked g vm0 ≤ fuel →
        (∀ t vm', dfsLoop g (dfsVisit g fuel) ns (u :: rest) vm0 = (some t, vm') →
          CycleConcl g t) ∧
        (∀ vm', dfsLoop g (dfsVisit g fuel) ns (u :: rest) vm0 = (none, vm') →
          DfsPostNone g u vm0 vm') := by
      intro ns
      induction ns with
      | nil =>
        intro vm0 hpre0 hdone0 _
        obtain ⟨hne0, hchain0, hd0, hm0, hnv0, hcl0, hnd0, hl20⟩ := hpre0
        obtain ⟨done, hdn, hdvis⟩ := hdone0
        have hustack : lookupV vm0 u = some VisitedType.IN_STACK :=
          hm0 u (List.mem_cons_self _ _)
        constructor
        · intro t vm' heq
          simp only [dfsLoop] at heq
          cases heq
        · intro vm' heq
          simp only [dfsLoop] at heq
          injection heq with h1 h2
          subst h2
          refine ⟨?_, ?_, ?_, ?_, ?_, ?_, ?_, ?_, ?_⟩
          · intro w hw
            rw [lookupV_cons] at hw
            by_cases huw : u = w
            · rw [if_pos huw] at hw
              cases hw
            · rw [if_neg huw] at hw
              exact ⟨hw, fun h => huw h.symm⟩
          · rw [lookupV_cons, if_pos rfl]
          · intro w hw
            rw [lookupV_cons]
            by_cases huw : u = w
            · rw [if_pos huw]
            · rw [if_neg huw]
              exact hw
          · intro w hw hwu
            rw [lookupV_cons, if_neg (fun h => hwu h.symm)]
            exact hw
          · intro w
            rw [lookupV_cons]
            by_cases huw : u = w
            · rw [if_pos huw]
              simp
            · rw [if_neg huw]
              exact hnv0 w
          · refine visitedClosed_cons_visited g vm0 u ?_ hcl0
            intro x hx
            rw [hdn, List.append_nil] at hx
            exact hdvis x hx
          · exact visNodup_cons_visited vm0 u (hl20 u hustack) hnd0
          · intro w hw hent
            rw [lookupV_cons] at hw
            by_cases huw : u = w
            · rw [if_pos huw] at hw
              cases hw
            · rw [if_neg huw] at hw
              rcases List.mem_cons.mp hent with h1 | h1
              · injection h1 with h1a h1b
                exact huw h1a.symm
              · exact hl20 w hw h1
          · exact ⟨[(u, VisitedType.VISITED)], rfl⟩
      | cons v ns ihns =>
        intro vm0 hpre0 hdone0 hcnt0
        obtain ⟨hne0, hchain0, hd0, hm0, hnv0, hcl0, hnd0, hl20⟩ := hpre0
        obtain ⟨done, hdn, hdvis⟩ := hdone0
        have hvadj : v ∈ adjOf g u := by
          rw [hdn]
          exact List.mem_append.mpr (Or.inr (List.mem_cons_self _ _))
        cases hv : lookupV vm0 v with
        | some val =>
          cases val with
          | IN_STACK =>
            constructor
            · intro t vm' heq
              simp only [dfsLoop, hv] at heq
              injection heq with h1 h2
              injection h1 with h1
              subst h1
              exact cycle_from_backedge g u v rest hchain0 (hd0 v hv)
                (edgeB_of_mem g u v hvadj)
            · intro vm' heq
              simp only [dfsLoop, hv] at heq
              cases heq
          | VISITED =>
            have hrec := ihns vm0
              ⟨hne0, hchain0, hd0, hm0, hnv0, hcl0, hnd0, hl20⟩
              ⟨done ++ [v], by rw [hdn, List.append_assoc]; rfl, by
                intro x hx
                rcases List.mem_append.mp hx with h1 | h1
                · exact hdvis x h1
                · have : x = v := by simpa using h1
                  rw [this]
                  exact hv⟩
              hcnt0
            constructor
            · intro t vm' heq
              simp only [dfsLoop, hv] at heq
              exact hrec.1 t vm' heq
            · intro vm' heq
              simp only [dfsLoop, hv] at heq
              exact hrec.2 vm' heq
          | NOT_VISITED => exact absurd hv (hnv0 v)
        | none =>
          have hvall : v ∈ allVerts g := mem_allVerts_of_adj g u v hvadj
          have hvmp : countUnmarked g ((v, VisitedType.IN_STACK) :: vm0) <
              countUnmarked g vm0 := countUnmarked_lt g vm0 v _ hvall hv
          have hprep : DfsPre g (v :: u :: rest) ((v, VisitedType.IN_STACK) :: vm0) := by
            refine ⟨by simp, ?_, ?_, ?_, ?_, ?_, ?_, ?_⟩
            · have h0 : stackChainB g (v :: u :: rest) =
                  (edgeB g u v && stackChainB g (u :: rest)) := rfl
              rw [h0, edgeB_of_mem g u v hvadj, hchain0]
              rfl
            · intro w hw
              rw [lookupV_cons] at hw
              by_cases hvw : v = w
              · rw [hvw]
                exact List.mem_cons_self _ _
              · rw [if_neg hvw] at hw
                exact List.mem_cons_of_mem _ (hd0 w hw)
            · intro w hw
              rw [lookupV_cons]
              by_cases hvw : v = w
              · rw [if_pos hvw]
              · rw [if_neg hvw]
                rcases List.mem_cons.mp hw with h1 | h1
                · exact absurd h1.symm hvw
                · exact hm0 w h1
            · intro w
              rw [lookupV_cons]
              by_cases hvw : v = w
              · rw [if_pos hvw]
                simp
              · rw [if_neg hvw]
                exact hnv0 w
            · exact visitedClosed_cons g vm0 v _ (by simp) hcl0
            · exact visNodup_cons vm0 v _ (by simp) hnd0
            · intro w hw hent
              rcases List.mem_cons.mp hent with h1 | h1
              · cases h1
              · rw [lookupV_cons] at hw
                by_cases hvw : v = w
                · subst hvw
                  exact lookupV_ne_none_of_mem h1 hv
                · rw [if_neg hvw] at hw
                  exact hl20 w hw h1
          have hmaster := ihf (v :: u :: rest) ((v, VisitedType.IN_STACK) :: vm0)
            hprep (by omega)
          rcases hres : dfsVisit g fuel (v :: u :: rest)
              ((v, VisitedType.IN_STACK) :: vm0) with ⟨res, vm1⟩
          cases res with
          | some t =>
            constructor
            · intro t2 vm' heq
              simp only [dfsLoop, hv, hres] at heq
              injection heq with h1 h2
              injection h1 with h1
              subst h1
              exact hmaster.1 t vm1 hres
            · intro vm' heq
              simp only [dfsLoop, hv, hres] at heq
              cases heq
          | none =>
            have hpost0 := hmaster.2 vm1 hres
            simp only [List.headD_cons] at hpost0
            obtain ⟨q1, q2, q3, q4, q5, q6, q7, q8, q9⟩ := hpost0
            have hwnev : ∀ w, lookupV vm0 w = some VisitedType.IN_STACK → ¬ v = w := by
              intro w hw hvw
              rw [← hvw] at hw
              rw [hv] at hw
              cases hw
            have hpre1 : DfsPre g (u :: rest) vm1 := by
              refine ⟨hne0, hchain0, ?_, ?_, q5, q6, q7, q8⟩
              · intro w hw
                obtain ⟨hw1, hw2⟩ := q1 w hw
                rw [lookupV_cons, if_neg (fun h => hw2 h.symm)] at hw1
                exact hd0 w hw1
              · intro w hw
                have hw0 := hm0 w hw
                have hwv : ¬ v = w := hwnev w hw0
                have hwp : lookupV ((v, VisitedType.IN_STACK) :: vm0) w =
                    some VisitedType.IN_STACK := by
                  rw [lookupV_cons, if_neg hwv]
                  exact hw0
                exact q4 w hwp (fun h => hwv h.symm)
            have hdone1 : ∃ d2, adjOf g u = d2 ++ ns ∧
                ∀ x ∈ d2, lookupV vm1 x = some VisitedType.VISITED := by
              refine ⟨done ++ [v], by rw [hdn, List.append_assoc]; rfl, ?_⟩
              intro x hx
              rcases List.mem_append.mp hx with h1 | h1
              · have hx0 := hdvis x h1
                have hxv : ¬ v = x := by
                  intro hvx
                  rw [← hvx, hv] at hx0
                  cases hx0
                have : lookupV ((v, VisitedType.IN_STACK) :: vm0) x =
                    some VisitedType.VISITED := by
                  rw [lookupV_cons, if_neg hxv]
                  exact hx0
                exact q3 x this
              · have hxv : x = v := by simpa using h1
                rw [hxv]
                exact q2
            have hcnt1 : countUnmarked g vm1 ≤ fuel := by
              have := countUnmarked_mono g _ vm1 q9
              omega
            have hrec := ihns vm1 hpre1 hdone1 hcnt1
            constructor
            · intro t vm' heq
              simp only [dfsLoop, hv, hres] at heq
              exact hrec.1 t vm' heq
            · intro vm' heq
              simp only [dfsLoop, hv, hres] at heq
              obtain ⟨r1, r2, r3, r4, r5, r6, r7, r8, r9⟩ := hrec.2 vm' heq
              refine ⟨?_, r2, ?_, ?_, r5, r6, r7, r8, ?_⟩
              · intro w hw
                obtain ⟨hw1, hw2⟩ := r1 w hw
                obtain ⟨hw3, hw4⟩ := q1 w hw1
                rw [lookupV_cons, if_neg (fun h => hw4 h.symm)] at hw3
                exact ⟨hw3, hw2⟩
              · intro w hw
                have hwv : ¬ v = w := by
                  intro hvw
                  rw [← hvw, hv] at hw
                  cases hw
                have : lookupV ((v, VisitedType.IN_STACK) :: vm0) w =
                    some VisitedType.VISITED := by
                  rw [lookupV_cons, if_neg hwv]
                  exact hw
                exact r3 w (q3 w this)
              · intro w hw hwu
                have hwv : ¬ v = w := hwnev w hw
                have hwp : lookupV ((v, VisitedType.IN_STACK) :: vm0) w =
                    some VisitedType.IN_STACK := by
                  rw [lookupV_cons, if_neg hwv]
                  exact hw
                exact r4 w (q4 w hwp (fun h => hwv h.symm)) hwu
              · exact List.IsSuffix.trans
                  (List.IsSuffix.trans ⟨[(v, VisitedType.IN_STACK)], rfl⟩ q9) r9
    have hloop := loop (adjOf g u) vm
      ⟨hne, hchain, hd, hm, hnv, hcl, hnd, hl2⟩
      ⟨[], by simp, by simp⟩ (by omega)
    constructor
    · intro t vm' heq
      rw [dfsVisit] at heq
      simp only [List.headD_cons] at heq
      exact hloop.1 t vm' heq
    · intro vm' heq
      rw [dfsVisit] at heq
      simp only [List.headD_cons] at heq
      simpa using hloop.2 vm' heq

/-- Master lemma for the outer vertex scan of `HasCycle`: a `some`
result is the maximum of a real cycle; a `none` result marks every
scanned vertex VISITED while keeping the finish-order state. -/
theorem hasCycleAux_master (g : WaitsFor) :
    ∀ (vs : List Nat) (vm : VMap), TopPre g vm →
      (∀ t vm', HasCycleAux g vs vm = (some t, vm') → CycleConcl g t) ∧
      (∀ vm', HasCycleAux g vs vm = (none, vm') →
        TopPre g vm' ∧ (∀ v ∈ vs, lookupV vm' v ≠ none) ∧
        (∀ w, lookupV vm w ≠ none → lookupV vm' w ≠ none)) := by
  intro vs
  induction vs with
  | nil =>
    intro vm htop
    constructor
    · intro t vm' heq
      simp only [HasCycleAux] at heq
      cases heq
    · intro vm' heq
      simp only [HasCycleAux] at heq
      injection heq with h1 h2
      subst h2
      exact ⟨htop, by simp, fun w h => h⟩
  | cons v vs ih =>
    intro vm htop
    obtain ⟨ht1, ht2, ht3, ht4⟩ := htop
    cases hv : lookupV vm v with
    | some val =>
      have hrec := ih vm ⟨ht1, ht2, ht3, ht4⟩
      constructor
      · intro t vm' heq
        simp only [HasCycleAux, hv] at heq
        exact hrec.1 t vm' heq
      · intro vm' heq
        simp only [HasCycleAux, hv] at heq
        obtain ⟨p1, p2, p3⟩ := hrec.2 vm' heq
        refine ⟨p1, ?_, p3⟩
        intro w hw
        rcases List.mem_cons.mp hw with h1 | h1
        · subst h1
          exact p3 w (by rw [hv]; simp)
        · exact p2 w h1
    | none =>
      have hprep : DfsPre g [v] ((v, VisitedType.IN_STACK) :: vm) := by
        refine ⟨by simp, rfl, ?_, ?_, ?_, ?_, ?_, ?_⟩
        · intro w hw
          rw [lookupV_cons] at hw
          by_cases hvw : v = w
          · rw [hvw]
            exact List.mem_cons_self _ _
          · rw [if_neg hvw] at hw
            exact absurd hw (ht1 w)
        · intro w hw
          have : w = v := by simpa using hw
          rw [this, lookupV_cons, if_pos rfl]
        · intro w
          rw [lookupV_cons]
          by_cases hvw : v = w
          · rw [if_pos hvw]
            simp
          · rw [if_neg hvw]
            exact ht2 w
        · exact visitedClosed_cons g vm v _ (by simp) ht3
        · exact visNodup_cons vm v _ (by simp) ht4
        · intro w hw hent
          rcases List.mem_cons.mp hent with h1 | h1
          · cases h1
          · rw [lookupV_cons] at hw
            by_cases hvw : v = w
            · subst hvw
              exact lookupV_ne_none_of_mem h1 hv
            · rw [if_neg hvw] at hw
              exact absurd hw (ht1 w)
      have hmaster := dfsVisit_master g (fuelFor g) [v] ((v, VisitedType.IN_STACK) :: vm)
        hprep (countUnmarked_lt_fuelFor g _)
      rcases hres : dfsVisit g (fuelFor g) [v] ((v, VisitedType.IN_STACK) :: vm)
        with ⟨res, vm1⟩
      cases res with
      | some t =>
        constructor
        · intro t2 vm' heq
          simp only [HasCycleAux, hv, hres] at heq
          injection heq with h1 h2
          injection h1 with h1
          subst h1
          exact hmaster.1 t vm1 hres
        · intro vm' heq
          simp only [HasCycleAux, hv, hres] at heq
          cases heq
      | none =>
        have hpost := hmaster.2 vm1 hres
        simp only [List.headD_cons] at hpost
        obtain ⟨q1, q2, q3, q4, q5, q6, q7, q8, q9⟩ := hpost
        have htop1 : TopPre g vm1 := by
          refine ⟨?_, q5, q6, q7⟩
          intro w hw
          obtain ⟨hw1, hw2⟩ := q1 w hw
          rw [lookupV_cons, if_neg (fun h => hw2 h.symm)] at hw1
          exact absurd hw1 (ht1 w)
        have hrec := ih vm1 htop1
        constructor
        · intro t vm' heq
          simp only [HasCycleAux, hv, hres] at heq
          exact hrec.1 t vm' heq
        · intro vm' heq
          simp only [HasCycleAux, hv, hres] at heq
          obtain ⟨p1, p2, p3⟩ := hrec.2 vm' heq
          refine ⟨p1, ?_, ?_⟩
          · intro w hw
            rcases List.mem_cons.mp hw with h1 | h1
            · subst h1
              exact p3 w (by rw [q2]; simp)
            · exact p2 w h1
          · intro w hw
            cases hlk : lookupV vm w with
            | none => exact absurd hlk hw
            | some val =>
              cases val with
              | IN_STACK => exact absurd hlk (ht1 w)
              | NOT_VISITED => exact absurd hlk (ht2 w)
              | VISITED =>
                have hvw : ¬ v = w := by
                  intro h
                  rw [← h, hv] at hlk
                  cases hlk
                have hstep : lookupV ((v, VisitedType.IN_STACK) :: vm) w =
                    some VisitedType.VISITED := by
                  rw [lookupV_cons, if_neg hvw]
                  exact hlk
                exact p3 w (by rw [q3 w hstep]; simp)

/-- C8: for every wait-for graph containing a cycle, `HasCycle` reports
a victim that is the largest transaction id among exactly the vertices
of a cycle of the graph, and the detection round sets that
transaction's state to ABORTED.  (The scan order — vertices sorted
ascending, neighbor lists kept sorted by `AddEdge` — is part of the
embedded definitions, which are functions of the graph alone, so the
selection is deterministic.) -/
theorem HasCycle_aborts_youngest_in_cycle (g : WaitsFor) (c0 : List Nat)
    (hc : isCycleList g c0 = true) :
    ∃ t c, HasCycle g = some t ∧ isCycleList g c = true ∧ t ∈ c ∧ (∀ x ∈ c, x ≤ t) ∧
      ∀ states, RunCycleDetectionStep g states t = TransactionState.ABORTED := by
  have htop0 : TopPre g ([] : VMap) := by
    refine ⟨?_, ?_, ?_, ?_⟩
    · intro w
      simp [lookupV, List.lookup]
    · intro w
      simp [lookupV, List.lookup]
    · intro pre u post h x hx
      cases pre <;> simp at h
    · simp [visNodup]
  have hmaster := hasCycleAux_master g (sortAsc (g.map Prod.fst)) [] htop0
  rcases hres : HasCycleAux g (sortAsc (g.map Prod.fst)) [] with ⟨res, vmF⟩
  cases res with
  | some t =>
    obtain ⟨c, hc1, hc2, hc3⟩ := hmaster.1 t vmF hres
    have hH : HasCycle g = some t := by
      rw [HasCycle, hres]
    refine ⟨t, c, hH, hc1, hc2, hc3, ?_⟩
    intro states
    rw [RunCycleDetectionStep, hH]
    simp
  | none =>
    exfalso
    obtain ⟨⟨f1, f2, f3, f4⟩, fall, _⟩ := hmaster.2 vmF hres
    apply closure_no_cycle g vmF f3 f4 c0 hc
    intro x hx
    obtain ⟨w, hw⟩ := cycle_mem_edge g c0 hc x hx
    have hsorted : x ∈ sortAsc (g.map Prod.fst) :=
      (mem_sortAsc _ x).mpr (key_of_edge g x w hw)
    have hmarked := fall x hsorted
    cases hlk : lookupV vmF x with
    | none => exact absurd hlk hmarked
    | some val =>
      cases val with
      | IN_STACK => exact absurd hlk (f1 x)
      | NOT_VISITED => exact absurd hlk (f2 x)
      | VISITED => rfl

/-- Witness for C8 at the two-vertex cycle 1 ⇄ 2. -/
theorem HasCycle_aborts_youngest_in_cycle_witness :
    isCycleList [(1, [2]), (2, [1])] [1, 2] = true ∧
      ∃ t c, HasCycle [(1, [2]), (2, [1])] = some t ∧
        isCycleList [(1, [2]), (2, [1])] c = true ∧ t ∈ c ∧ (∀ x ∈ c, x ≤ t) ∧
        ∀ states, RunCycleDetectionStep [(1, [2]), (2, [1])] states t =
          TransactionState.ABORTED :=
  ⟨by decide, HasCycle_aborts_youngest_in_cycle [(1, [2]), (2, [1])] [1, 2] (by decide)⟩
